import Mathlib

/-!
# Verification of the Recoil key-binding engine (`rts/Game/UI/KeyBindings.cpp`)

A shallow embedding of the key-binding store, its mutators, and the
resolution/merge algorithm of `KeyBindings.cpp`, together with theorems
settling the specification claims.

Collaborator code that is not part of the repository sources
(`CKeySet::Parse`, `CKeyChain::fit`, the `Action` constructor, the
`CKeyCodes` tables) is taken as a parameter or, where a claim needs its
behaviour, modelled from the spec; such definitions say so in their doc
comments.  Everything else is translated directly from the source file.
-/

namespace Recoil

/-- Keyspace tag of a key set: layout-dependent key codes versus
layout-independent scan codes (`CKeySet::CKeySetType`). -/
inductive KeySpaceTag
  | keyCode
  | scanCode
deriving DecidableEq, Repr

/-- Modelled from the spec: the modifier bitmask of a `CKeySet`
(`KeySet.h` is not among the repository sources).  Bits 0..3 are the
concrete ctrl/alt/shift/meta modifiers; bit 4 is the wildcard "Any" bit. -/
def anyModBit : Nat := 16

/-- A single chord: key identifier, modifier bitmask and keyspace tag
(`CKeySet`).  The key identifier is an integer; negative values are
invalid keys. -/
structure KeySet where
  key : Int
  modifiers : Nat
  tag : KeySpaceTag
deriving DecidableEq, Repr

/-- `CKeySet::AnyMod()`: whether the wildcard bit is set. -/
def KeySet.anyMod (ks : KeySet) : Bool := ks.modifiers.testBit 4

/-- `CKeySet::SetAnyBit()`: set the wildcard bit. -/
def KeySet.setAnyBit (ks : KeySet) : KeySet :=
  { ks with modifiers := ks.modifiers ||| anyModBit }

/-- `CKeySet::IsKeyCode()`. -/
def KeySet.isKeyCode (ks : KeySet) : Bool := ks.tag = KeySpaceTag.keyCode

/-- Placeholder key set used only to give `List.getLastD` a default; all
uses are guarded by non-emptiness of the chain. -/
def dummyKeySet : KeySet := ⟨-1, 0, KeySpaceTag.keyCode⟩

/-- A parsed action (`Action`): command word, trailing argument text and
the raw source line.  Only the fields the claims mention are kept. -/
structure Action where
  command : String
  extra : String
  line : String
deriving DecidableEq, Repr

/-- `CKeyBindings::KeyBinding`: an action, the key chain it is bound
under, the display string of how it was typed, and the global binding
index assigned at insertion time. -/
structure KeyBinding where
  action : Action
  keyChain : List KeySet
  boundWith : String
  bindingIndex : Nat
deriving DecidableEq, Repr

/-- `keyChain.back()`: the trigger chord of a binding's chain. -/
def KeyBinding.trigger (kb : KeyBinding) : KeySet := kb.keyChain.getLastD dummyKeySet

/-- `compareActionByTriggerOrder` (KeyBindings.cpp, lines 41-49):
wildcard-trigger bindings sort after exact-trigger bindings; within equal
wildcard status, lower binding index first. -/
def compareActionByTriggerOrder (a b : KeyBinding) : Bool :=
  let selfAnyMod := a.trigger.anyMod
  let bindingAnyMod := b.trigger.anyMod
  if selfAnyMod = bindingAnyMod then decide (a.bindingIndex < b.bindingIndex)
  else bindingAnyMod

/-- One keyspace store: a finite map from trigger key set to the ordered
list of bindings under it (`CKeyBindings::KeyMap`), embedded as an
association list with distinct keys. -/
abbrev KeyMap := List (KeySet × List KeyBinding)

/-- `bindings.find(ks)`. -/
def kmFind (m : KeyMap) (ks : KeySet) : Option (List KeyBinding) :=
  (m.find? (fun e => e.1 == ks)).map Prod.snd

/-- `bindings.erase(it)` for the entry of key `ks`. -/
def kmErase (m : KeyMap) (ks : KeySet) : KeyMap :=
  m.eraseP (fun e => e.1 == ks)

/-- Replace the value stored under `ks` (in-place update through the
iterator in the source). -/
def kmSet (m : KeyMap) (ks : KeySet) (l : List KeyBinding) : KeyMap :=
  m.map (fun e => if e.1 == ks then (e.1, l) else e)

/-- The mutable state of `CKeyBindings` that the claims are about: the
two keyspace stores and the global binding index counter. -/
structure BindingsState where
  codeBindings : KeyMap
  scanBindings : KeyMap
  bindingsCount : Nat
deriving DecidableEq, Repr

/-- `CKeyBindings::AddActionToKeyMap` (lines 595-621): look up the list
for the chain's trigger key set; append with a freshly assigned global
index unless an entry with the same action source line is already
present. -/
def AddActionToKeyMap (m : KeyMap) (count : Nat) (kb : KeyBinding) : KeyMap × Nat :=
  let ks := kb.trigger
  match kmFind m ks with
  | none => (m ++ [(ks, [{ kb with bindingIndex := count + 1 }])], count + 1)
  | some l =>
    if l.any (fun k => kb.action.line == k.action.line) then (m, count)
    else (kmSet m ks (l ++ [{ kb with bindingIndex := count + 1 }]), count + 1)

/-- The stateful-command set installed by `CKeyBindings::Init`
(lines 276-287). -/
def statefulCommands : List String :=
  ["drawinmap", "moveforward", "moveback", "moveright", "moveleft",
   "moveup", "movedown", "moveslow", "movefast", "movetilt", "movereset", "moverotate"]

/-- Split a character list on `','`, keeping empty segments, matching the
`getline(.., ',')` loop of `ParseSingleChain`. -/
def splitOnComma : List Char → List (List Char)
  | [] => [[]]
  | c :: rest =>
    if c = ',' then [] :: splitOnComma rest
    else
      match splitOnComma rest with
      | [] => [[c]]
      | s :: ss => (c :: s) :: ss

/-- `ParseSingleChain` (lines 546-566): split the text on `','` and parse
every segment with the key-set parser `p` (the external
`CKeySet::Parse`); fail if any segment fails. -/
def ParseSingleChain (p : List Char → Option KeySet) (cs : List Char) : Option (List KeySet) :=
  (splitOnComma cs).mapM p

/-- `keyCodes.GetCode(",")` printed with `"%#x"`: the comma key code 44
rendered as a hex literal, used by `ParseKeyChain` when reinterpreting a
separator as a literal key. -/
def hexComma : List Char := ['0', 'x', '2', 'c']

/-- `keystr.replace(cpos, 1, "0x2c")`. -/
def replaceAtWithHex (cs : List Char) (i : Nat) : List Char :=
  cs.take i ++ hexComma ++ cs.drop (i + 1)

/-- The comma positions of `cs` that are at or before `pos`
(`pos = none` meaning `std::string::npos`, i.e. no bound). -/
def commaIdxs (cs : List Char) (pos : Option Nat) : List Nat :=
  (List.range cs.length).filter
    (fun i => (cs.getD i ' ' == ',') && pos.elim true (fun pp => decide (i ≤ pp)))

/-- `keystr.rfind(',', pos)`: the last comma position at or before `pos`. -/
def rfindComma (cs : List Char) (pos : Option Nat) : Option Nat :=
  (commaIdxs cs pos).getLast?

/-- Number of commas at positions `≤ pos`; the termination measure of
`ParseKeyChain`'s backtracking recursion (each recursive call either
moves the bound below the last comma or replaces that comma). -/
def commaCountLE (cs : List Char) (pos : Option Nat) : Nat :=
  (commaIdxs cs pos).length

/-- `ParseKeyChain` (lines 569-592), with explicit fuel standing for the
recursion depth: try the text as-is; otherwise find the last comma at or
before `pos`, first retry allowing only earlier commas to be
reinterpreted, then replace that comma by the hex literal `0x2c` and
retry.  `ParseKeyChain` below supplies provably sufficient fuel. -/
def ParseKeyChainF (p : List Char → Option KeySet) :
    Nat → List Char → Option Nat → Option (List KeySet)
  | 0, _, _ => none
  | fuel + 1, cs, pos =>
    match ParseSingleChain p cs with
    | some kc => some kc
    | none =>
      match rfindComma cs pos with
      | none => none
      | some cpos =>
        match (if cpos = 0 then none else ParseKeyChainF p fuel cs (some (cpos - 1))) with
        | some kc => some kc
        | none => ParseKeyChainF p fuel (replaceAtWithHex cs cpos) (some cpos)

/-- `ParseKeyChain` with the fuel fixed at one more than the number of
reinterpretable commas, which `ParseKeyChainF_mono` below proves is
enough. -/
def ParseKeyChain (p : List Char → Option KeySet) (cs : List Char) (pos : Option Nat) :
    Option (List KeySet) :=
  ParseKeyChainF p (commaCountLE cs pos + 1) cs pos

/-- `CKeyBindings::Bind` (lines 624-651), parametrised by the external
`Action` constructor `pact` and key-set parser `p`: parse the action and
the shortcut, failing without mutation on an empty command or an
unparsable or empty chain; force the wildcard bit for stateful commands;
insert into the keyspace store selected by the trigger chord. -/
def Bind (p : List Char → Option KeySet) (pact : String → Action)
    (st : BindingsState) (keystr line : String) : Bool × BindingsState :=
  let act := pact line
  if act.command = "" then (false, st)
  else
    match ParseKeyChain p keystr.toList none with
    | none => (false, st)
    | some chain =>
      if chain = [] then (false, st)
      else
        let ks0 := chain.getLastD dummyKeySet
        let ks := if act.command ∈ statefulCommands then ks0.setAnyBit else ks0
        let kb : KeyBinding :=
          { action := act, keyChain := chain.dropLast ++ [ks], boundWith := keystr,
            bindingIndex := 0 }
        if ks.isKeyCode then
          let r := AddActionToKeyMap st.codeBindings st.bindingsCount kb
          (true, { st with codeBindings := r.1, bindingsCount := r.2 })
        else
          let r := AddActionToKeyMap st.scanBindings st.bindingsCount kb
          (true, { st with scanBindings := r.1, bindingsCount := r.2 })

/-- `CKeyBindings::RemoveCommandFromList` (lines 770-786): the in-place
erase loop, removing every binding whose command matches and reporting
whether any was removed. -/
def removeCommandFromList (l : List KeyBinding) (command : String) :
    List KeyBinding × Bool :=
  match l with
  | [] => ([], false)
  | kb :: rest =>
    let r := removeCommandFromList rest command
    if kb.action.command = command then (r.1, true) else (kb :: r.1, r.2)

/-- `CKeyBindings::RemoveActionFromKeyMap` (lines 704-724): scan every
key set's list, remove matching commands, erase now-empty lists. -/
def removeActionFromKeyMap (command : String) : KeyMap → Bool × KeyMap
  | [] => (false, [])
  | (ks, l) :: rest =>
    let l' := removeCommandFromList l command
    let r := removeActionFromKeyMap command rest
    (l'.2 || r.1, if l'.1 = [] then r.2 else (ks, l'.1) :: r.2)

/-- `CKeyBindings::UnBindAction` (lines 727-732).  The source returns
`RemoveActionFromKeyMap(command, codeBindings) ||
RemoveActionFromKeyMap(command, scanBindings)`: the second call is
short-circuited away whenever the first one succeeds. -/
def UnBindAction (st : BindingsState) (command : String) : Bool × BindingsState :=
  let r1 := removeActionFromKeyMap command st.codeBindings
  if r1.1 then (true, { st with codeBindings := r1.2 })
  else
    let r2 := removeActionFromKeyMap command st.scanBindings
    (r2.1, { st with codeBindings := r1.2, scanBindings := r2.2 })

/-- `CKeyBindings::UnBind` (lines 654-678), parametrised by the external
key-set parser `pks`: parse the shortcut to one exact key set, remove
matching command entries from that key set's list in its keyspace, erase
the list if it became empty. -/
def UnBind (pks : String → Option KeySet) (st : BindingsState)
    (keystr command : String) : Bool × BindingsState :=
  match pks keystr with
  | none => (false, st)
  | some ks =>
    let m := if ks.isKeyCode then st.codeBindings else st.scanBindings
    match kmFind m ks with
    | none => (false, st)
    | some l =>
      let r := removeCommandFromList l command
      let m' := if r.1 = [] then kmErase m ks else kmSet m ks r.1
      if ks.isKeyCode then (r.2, { st with codeBindings := m' })
      else (r.2, { st with scanBindings := m' })

/-- `FilterByKeychain` (lines 321-326), parametrised by the external
`CKeyChain::fit` predicate `fit live cand`: keep the bindings whose full
key chain fits the live chain. -/
def filterByKeychain (fit : List KeySet → List KeySet → Bool)
    (l : List KeyBinding) (kc : List KeySet) : List KeyBinding :=
  l.filter (fun kb => fit kc kb.keyChain)

/-- `std::inplace_merge(first, middle, last, lt)` on the two consecutive
ranges `as` and `bs`: stable merge taking from the second range exactly
when `lt b a`. -/
def mergeComp (lt : KeyBinding → KeyBinding → Bool) :
    List KeyBinding → List KeyBinding → List KeyBinding
  | [], bs => bs
  | a :: as, [] => a :: as
  | a :: as, b :: bs =>
    if lt b a then b :: mergeComp lt (a :: as) (b :: bs).tail
    else a :: mergeComp lt as (b :: bs)
termination_by as bs => as.length + bs.length

/-- The duplicate-resolution loop of `MergeActionListsByTrigger`
(lines 368-385): process each element of list B in order; on the first
A-survivor carrying the same action source line, drop the B element when
its binding index is not lower, otherwise erase that A-survivor and
append the B element.  Returns the surviving A-range and the appended
B-elements. -/
def dedupeMerge : List KeyBinding → List KeyBinding → List KeyBinding × List KeyBinding
  | as, [] => (as, [])
  | as, b :: bs =>
    match as.find? (fun a => b.action.line == a.action.line) with
    | none =>
      let r := dedupeMerge as bs
      (r.1, b :: r.2)
    | some a =>
      if b.bindingIndex ≥ a.bindingIndex then dedupeMerge as bs
      else
        let r := dedupeMerge (as.eraseP (fun a => b.action.line == a.action.line)) bs
        (r.1, b :: r.2)

/-- `MergeActionListsByTrigger` (lines 329-389): append the merge of the
two per-keyspace candidate lists to `out`; duplicates (same action
source line) keep only the copy with the lower binding index, and the
surviving elements are merged stably by `compareActionByTriggerOrder`. -/
def MergeActionListsByTrigger (keyBindingListA keyBindingListB out : List KeyBinding) :
    List KeyBinding :=
  if keyBindingListA = [] then out ++ keyBindingListB
  else
    let r := dedupeMerge keyBindingListA keyBindingListB
    out ++ mergeComp compareActionByTriggerOrder r.1 r.2

/-- `CKeyBindings::GetKeyBindingList(const CKeySet&, bool)`
(lines 401-418): empty for a negative key identifier; otherwise look up
the key set (with the wildcard bit forced when `forceAny`) in the store
of its keyspace. -/
def GetKeyBindingListKS (st : BindingsState) (ks : KeySet) (forceAny : Bool) :
    List KeyBinding :=
  if ks.key < 0 then []
  else
    let bindings := if ks.isKeyCode then st.codeBindings else st.scanBindings
    let toUse := if forceAny then ks.setAnyBit else ks
    (kmFind bindings toUse).getD []

/-- `CKeyBindings::GetKeyBindingList(const CKeyChain&, const CKeyChain&)`
(lines 440-473): merge the exact-modifier filtered lists of the two live
chains, then the wildcard-modifier filtered lists, concatenating the two
merge results. -/
def GetKeyBindingListChains (fit : List KeySet → List KeySet → Bool)
    (st : BindingsState) (kc sc : List KeySet) : List KeyBinding :=
  let kBack := kc.getLastD dummyKeySet
  let sBack := sc.getLastD dummyKeySet
  let kList := if !kBack.anyMod then filterByKeychain fit (GetKeyBindingListKS st kBack false) kc else []
  let sList := if !sBack.anyMod then filterByKeychain fit (GetKeyBindingListKS st sBack false) sc else []
  let merged := MergeActionListsByTrigger kList sList []
  let kList2 := filterByKeychain fit (GetKeyBindingListKS st kBack true) kc
  let sList2 := filterByKeychain fit (GetKeyBindingListKS st sBack true) sc
  MergeActionListsByTrigger kList2 sList2 merged

/-- `CKeyBindings::GetKeyBindingList(int, int, unsigned char)`
(lines 482-491): build the two single-chord live chains and resolve. -/
def GetKeyBindingListCodes (fit : List KeySet → List KeySet → Bool)
    (st : BindingsState) (keyCode scanCode : Int) (modifiers : Nat) : List KeyBinding :=
  GetKeyBindingListChains fit st
    [⟨keyCode, modifiers, KeySpaceTag.keyCode⟩]
    [⟨scanCode, modifiers, KeySpaceTag.scanCode⟩]

/-- The `unbindall` branch of `CKeyBindings::ExecuteCommand`
(lines 908-918): clear both stores, reset the binding index counter to
zero, then re-establish the baseline `bind enter chat`.  (The
`keyCodes.Reset()`/`scanCodes.Reset()` calls concern the collaborator
key-symbol tables, which are outside this state.) -/
def unbindAll (p : List Char → Option KeySet) (pact : String → Action)
    (st : BindingsState) : BindingsState :=
  let cleared : BindingsState :=
    { st with codeBindings := [], scanBindings := [], bindingsCount := 0 }
  (Bind p pact cleared "enter" "chat").2

/-- Modelled from the spec: `CKeySet` matching (`KeySet.cpp` is not among
the repository sources) — a candidate chord matches a live chord of the
same keyspace and key identifier when it carries the wildcard bit or has
exactly the live modifiers. -/
def specKeySetMatch (live cand : KeySet) : Bool :=
  live.key == cand.key && live.tag == cand.tag &&
    (cand.anyMod || live.modifiers == cand.modifiers)

/-- Modelled from the spec: `CKeyChain::fit` (`KeySet.cpp` is not among
the repository sources) — the live chain must end, in order, with chords
matching each entry of the candidate chain.  The inter-key timeout of
the source acts on timestamps the chords here do not carry, so it is
not modelled; no claim depends on timing. -/
def specChainFit (live cand : List KeySet) : Bool :=
  decide (cand.length ≤ live.length) &&
    ((live.drop (live.length - cand.length)).zip cand).all
      (fun z => specKeySetMatch z.1 z.2)

/-! ## Association-list store lemmas -/

theorem kmFind_nil (ks : KeySet) : kmFind [] ks = none := rfl

theorem kmFind_cons (e : KeySet × List KeyBinding) (m : KeyMap) (ks : KeySet) :
    kmFind (e :: m) ks = if e.1 = ks then some e.2 else kmFind m ks := by
  simp only [kmFind, List.find?_cons]
  by_cases h : e.1 = ks
  · simp [h]
  · simp [h, beq_eq_false_iff_ne.mpr h]

theorem kmFind_kmErase_ne (m : KeyMap) (ks ks' : KeySet) (h : ks' ≠ ks) :
    kmFind (kmErase m ks) ks' = kmFind m ks' := by
  induction m with
  | nil => rfl
  | cons e m ih =>
    rw [kmErase, List.eraseP_cons]
    by_cases he : e.1 = ks
    · simp only [he, beq_self_eq_true, cond_true]
      rw [kmFind_cons, if_neg (by rw [he]; exact fun hh => h hh.symm)]
    · simp only [beq_eq_false_iff_ne.mpr he, cond_false]
      rw [kmFind_cons, kmFind_cons, ← kmErase, ih]

theorem kmFind_kmSet_ne (m : KeyMap) (ks : KeySet) (l : List KeyBinding) (ks' : KeySet)
    (h : ks' ≠ ks) : kmFind (kmSet m ks l) ks' = kmFind m ks' := by
  induction m with
  | nil => rfl
  | cons e m ih =>
    rw [kmSet, List.map_cons]
    by_cases he : e.1 = ks
    · rw [if_pos (by simpa using he), kmFind_cons, kmFind_cons,
        if_neg (by rw [he]; exact fun hh => h hh.symm), if_neg (by rw [he]; exact fun hh => h hh.symm)]
      exact ih
    · rw [if_neg (by simpa using he), kmFind_cons, kmFind_cons]
      by_cases hks' : e.1 = ks'
      · simp [hks']
      · rw [if_neg hks', if_neg hks']
        exact ih

theorem kmFind_kmSet_self (m : KeyMap) (ks : KeySet) (l l₀ : List KeyBinding)
    (h : kmFind m ks = some l₀) : kmFind (kmSet m ks l) ks = some l := by
  induction m with
  | nil => simp [kmFind] at h
  | cons e m ih =>
    rw [kmSet, List.map_cons]
    by_cases he : e.1 = ks
    · rw [if_pos (by simpa using he), kmFind_cons, if_pos he]
    · rw [if_neg (by simpa using he), kmFind_cons, if_neg he]
      rw [kmFind_cons, if_neg he] at h
      exact ih h

theorem kmFind_append_self (m : KeyMap) (ks : KeySet) (l : List KeyBinding)
    (h : kmFind m ks = none) : kmFind (m ++ [(ks, l)]) ks = some l := by
  induction m with
  | nil => simp [kmFind]
  | cons e m ih =>
    rw [kmFind_cons] at h
    rw [List.cons_append, kmFind_cons]
    by_cases he : e.1 = ks
    · rw [if_pos he] at h; exact absurd h (by simp)
    · rw [if_neg he] at h ⊢
      exact ih h

/-! ## C9: negative key identifiers are lookup misses -/

/-- C9: for every `KeySet` whose key identifier is negative, the
per-keyset lookup `GetKeyBindingList(ks, forceAny)` returns the empty
binding list, for both values of `forceAny` and any store contents.  (The
embedding is a pure function of the store, so the lookup cannot modify
either keyspace map.) -/
theorem claim_C9_negative_key_lookup_empty (st : BindingsState) (ks : KeySet)
    (forceAny : Bool) (h : ks.key < 0) :
    GetKeyBindingListKS st ks forceAny = [] := by
  simp [GetKeyBindingListKS, h]

theorem claim_C9_witness :
    dummyKeySet.key < 0 ∧
      GetKeyBindingListKS ⟨[], [], 0⟩ dummyKeySet true = [] :=
  ⟨by decide, claim_C9_negative_key_lookup_empty ⟨[], [], 0⟩ dummyKeySet true (by decide)⟩

/-! ## C5: failed binds are atomic no-ops -/

/-- C5: if the action command is empty, or the shortcut does not parse to
a non-empty key chain, `Bind` returns `false` and the state (both
keyspace stores and the global binding index counter) is exactly as
before the call. -/
theorem claim_C5_failed_bind_no_op (p : List Char → Option KeySet)
    (pact : String → Action) (st : BindingsState) (keystr line : String)
    (h : (pact line).command = "" ∨ ParseKeyChain p keystr.toList none = none ∨
      ParseKeyChain p keystr.toList none = some []) :
    Bind p pact st keystr line = (false, st) := by
  by_cases hc : (pact line).command = ""
  · simp [Bind, hc]
  · rcases h with h | h | h
    · exact absurd h hc
    · have h' : ParseKeyChain p keystr.data none = none := h
      simp [Bind, hc, h']
    · have h' : ParseKeyChain p keystr.data none = some [] := h
      simp [Bind, hc, h']

theorem claim_C5_witness :
    ((fun l => Action.mk "" "" l) "y").command = "" ∧
      Bind (fun _ => none) (fun l => Action.mk "" "" l) ⟨[], [], 0⟩ "x" "y" =
        (false, ⟨[], [], 0⟩) :=
  ⟨rfl, claim_C5_failed_bind_no_op _ _ _ "x" "y" (Or.inl rfl)⟩

/-! ## C3: `UnBindAction` and the short-circuited second keyspace -/

/-- C3, failing input: an action bound both in the key-code store and in
the scan-code store.  `UnBindAction` short-circuits the `||` in
`RemoveActionFromKeyMap(command, codeBindings) ||
RemoveActionFromKeyMap(command, scanBindings)`: it returns `true` after
cleaning only the key-code store, and the scan-code binding with that
command survives — contradicting the claim (and spec), which say that
after a `true` return no binding with the command remains in either
store. -/
theorem claim_C3_short_circuit_leaves_scan_binding :
    let kbCode : KeyBinding :=
      ⟨⟨"attack", "", "attack"⟩, [⟨97, 0, KeySpaceTag.keyCode⟩], "a", 1⟩
    let kbScan : KeyBinding :=
      ⟨⟨"attack", "", "attack"⟩, [⟨4, 0, KeySpaceTag.scanCode⟩], "sc_a", 2⟩
    let st : BindingsState :=
      ⟨[(⟨97, 0, KeySpaceTag.keyCode⟩, [kbCode])],
       [(⟨4, 0, KeySpaceTag.scanCode⟩, [kbScan])], 2⟩
    (UnBindAction st "attack").1 = true ∧
      (UnBindAction st "attack").2.scanBindings.any
        (fun e => e.2.any (fun kb => kb.action.command == "attack")) = true := by
  decide

/-! ## C10: frame effect of `unbind` / `RemoveCommandFromList` -/

theorem removeCommandFromList_fst (l : List KeyBinding) (command : String) :
    (removeCommandFromList l command).1 =
      l.filter (fun kb => !(kb.action.command == command)) := by
  induction l with
  | nil => rfl
  | cons kb rest ih =>
    rw [removeCommandFromList, List.filter_cons]
    by_cases hk : kb.action.command = command
    · simp [hk, ih]
    · simp [hk, beq_eq_false_iff_ne.mpr hk, ih]

/-- C10: removing a command from one keyset's binding list keeps every
non-matching binding — with its index, contents and relative order —
exactly as in a `filter`; and `UnBind` leaves the other keyspace store
untouched and every other keyset's list in its own store unchanged. -/
theorem claim_C10_unbind_frame_effect (l : List KeyBinding) (command : String)
    (pks : String → Option KeySet) (st : BindingsState) (keystr : String)
    (ks : KeySet) (hks : pks keystr = some ks) :
    (removeCommandFromList l command).1 =
      l.filter (fun kb => !(kb.action.command == command)) ∧
    (ks.isKeyCode = true →
      (UnBind pks st keystr command).2.scanBindings = st.scanBindings ∧
      ∀ ks', ks' ≠ ks →
        kmFind (UnBind pks st keystr command).2.codeBindings ks' =
          kmFind st.codeBindings ks') ∧
    (ks.isKeyCode = false →
      (UnBind pks st keystr command).2.codeBindings = st.codeBindings ∧
      ∀ ks', ks' ≠ ks →
        kmFind (UnBind pks st keystr command).2.scanBindings ks' =
          kmFind st.scanBindings ks') := by
  refine ⟨removeCommandFromList_fst l command, ?_, ?_⟩
  · intro hkc
    rw [UnBind, hks]
    simp only [hkc, if_true]
    cases hfind : kmFind st.codeBindings ks with
    | none => simp
    | some l₀ =>
      simp only []
      constructor
      · by_cases hemp : (removeCommandFromList l₀ command).1 = [] <;> simp [hemp]
      · intro ks' hne
        by_cases hemp : (removeCommandFromList l₀ command).1 = [] <;>
          simp [hemp, kmFind_kmErase_ne _ _ _ hne, kmFind_kmSet_ne _ _ _ _ hne]
  · intro hkc
    rw [UnBind, hks]
    simp only [hkc, if_false, Bool.false_eq_true]
    cases hfind : kmFind st.scanBindings ks with
    | none => simp
    | some l₀ =>
      simp only []
      constructor
      · by_cases hemp : (removeCommandFromList l₀ command).1 = [] <;> simp [hemp]
      · intro ks' hne
        by_cases hemp : (removeCommandFromList l₀ command).1 = [] <;>
          simp [hemp, kmFind_kmErase_ne _ _ _ hne, kmFind_kmSet_ne _ _ _ _ hne]

theorem claim_C10_witness :
    (fun (_ : String) => some (⟨97, 0, KeySpaceTag.keyCode⟩ : KeySet)) "a" =
        some ⟨97, 0, KeySpaceTag.keyCode⟩ ∧
    (removeCommandFromList
        [⟨⟨"attack", "", "attack"⟩, [⟨97, 0, KeySpaceTag.keyCode⟩], "a", 1⟩] "attack").1 =
      [⟨⟨"attack", "", "attack"⟩, [⟨97, 0, KeySpaceTag.keyCode⟩], "a", 1⟩].filter
        (fun kb => !(kb.action.command == "attack")) ∧
    (UnBind (fun _ => some ⟨97, 0, KeySpaceTag.keyCode⟩)
        ⟨[(⟨97, 0, KeySpaceTag.keyCode⟩,
           [⟨⟨"attack", "", "attack"⟩, [⟨97, 0, KeySpaceTag.keyCode⟩], "a", 1⟩])], [], 1⟩
        "a" "attack").2.scanBindings = [] ∧
    kmFind (UnBind (fun _ => some ⟨97, 0, KeySpaceTag.keyCode⟩)
        ⟨[(⟨97, 0, KeySpaceTag.keyCode⟩,
           [⟨⟨"attack", "", "attack"⟩, [⟨97, 0, KeySpaceTag.keyCode⟩], "a", 1⟩])], [], 1⟩
        "a" "attack").2.codeBindings ⟨98, 0, KeySpaceTag.keyCode⟩ =
      kmFind [(⟨97, 0, KeySpaceTag.keyCode⟩,
           [⟨⟨"attack", "", "attack"⟩, [⟨97, 0, KeySpaceTag.keyCode⟩], "a", 1⟩])]
        ⟨98, 0, KeySpaceTag.keyCode⟩ := by
  refine ⟨rfl, ?_, ?_, ?_⟩
  · exact (claim_C10_unbind_frame_effect
      [⟨⟨"attack", "", "attack"⟩, [⟨97, 0, KeySpaceTag.keyCode⟩], "a", 1⟩] "attack"
      (fun _ => some ⟨97, 0, KeySpaceTag.keyCode⟩)
      ⟨[(⟨97, 0, KeySpaceTag.keyCode⟩,
         [⟨⟨"attack", "", "attack"⟩, [⟨97, 0, KeySpaceTag.keyCode⟩], "a", 1⟩])], [], 1⟩
      "a" ⟨97, 0, KeySpaceTag.keyCode⟩ rfl).1
  · exact ((claim_C10_unbind_frame_effect
      [⟨⟨"attack", "", "attack"⟩, [⟨97, 0, KeySpaceTag.keyCode⟩], "a", 1⟩] "attack"
      (fun _ => some ⟨97, 0, KeySpaceTag.keyCode⟩)
      ⟨[(⟨97, 0, KeySpaceTag.keyCode⟩,
         [⟨⟨"attack", "", "attack"⟩, [⟨97, 0, KeySpaceTag.keyCode⟩], "a", 1⟩])], [], 1⟩
      "a" ⟨97, 0, KeySpaceTag.keyCode⟩ rfl).2.1 (by decide)).1
  · exact ((claim_C10_unbind_frame_effect
      [⟨⟨"attack", "", "attack"⟩, [⟨97, 0, KeySpaceTag.keyCode⟩], "a", 1⟩] "attack"
      (fun _ => some ⟨97, 0, KeySpaceTag.keyCode⟩)
      ⟨[(⟨97, 0, KeySpaceTag.keyCode⟩,
         [⟨⟨"attack", "", "attack"⟩, [⟨97, 0, KeySpaceTag.keyCode⟩], "a", 1⟩])], [], 1⟩
      "a" ⟨97, 0, KeySpaceTag.keyCode⟩ rfl).2.1 (by decide)).2
      ⟨98, 0, KeySpaceTag.keyCode⟩ (by decide)

/-! ## C4: idempotent insert -/

/-- `n`-fold repetition of `AddActionToKeyMap` with the identical binding
(repeating `bind` with the identical shortcut+action pair). -/
def addIter (kb : KeyBinding) : Nat → KeyMap × Nat → KeyMap × Nat
  | 0, q => q
  | n + 1, q => addIter kb n (AddActionToKeyMap q.1 q.2 kb)

theorem AddActionToKeyMap_noop (m : KeyMap) (count : Nat) (kb : KeyBinding)
    (h : ((kmFind m kb.trigger).getD []).any
      (fun k => kb.action.line == k.action.line) = true) :
    AddActionToKeyMap m count kb = (m, count) := by
  cases hf : kmFind m kb.trigger with
  | none => rw [hf] at h; simp at h
  | some l =>
    rw [hf] at h
    simp only [Option.getD_some] at h
    simp [AddActionToKeyMap, hf, h]

theorem AddActionToKeyMap_append (m : KeyMap) (count : Nat) (kb : KeyBinding)
    (h : ((kmFind m kb.trigger).getD []).any
      (fun k => kb.action.line == k.action.line) = false) :
    (AddActionToKeyMap m count kb).2 = count + 1 ∧
    kmFind (AddActionToKeyMap m count kb).1 kb.trigger =
      some ((kmFind m kb.trigger).getD [] ++ [{ kb with bindingIndex := count + 1 }]) := by
  cases hf : kmFind m kb.trigger with
  | none =>
    rw [AddActionToKeyMap, hf]
    exact ⟨rfl, by simpa using kmFind_append_self m kb.trigger _ hf⟩
  | some l =>
    rw [hf] at h
    simp only [Option.getD_some] at h
    simp only [AddActionToKeyMap, hf, h, Bool.false_eq_true, if_false, Option.getD_some]
    refine ⟨by trivial, by simpa using kmFind_kmSet_self m kb.trigger _ l hf⟩

theorem addIter_noop (kb : KeyBinding) (j : Nat) (q : KeyMap × Nat)
    (h : ((kmFind q.1 kb.trigger).getD []).any
      (fun k => kb.action.line == k.action.line) = true) :
    addIter kb j q = q := by
  induction j with
  | zero => rfl
  | succ j ih =>
    rw [addIter, AddActionToKeyMap_noop q.1 q.2 kb h]
    exact ih

/-- C4: inserting a binding whose action source line is already present
in the keyset's list leaves the store and the global index counter
unchanged; otherwise it appends the binding with the freshly assigned
global index `count + 1`; hence repeating the identical bind any number
of times leaves the action in the list exactly once. -/
theorem claim_C4_idempotent_insert (m : KeyMap) (count : Nat) (kb : KeyBinding) :
    (((kmFind m kb.trigger).getD []).any
        (fun k => kb.action.line == k.action.line) = true →
      AddActionToKeyMap m count kb = (m, count)) ∧
    (((kmFind m kb.trigger).getD []).any
        (fun k => kb.action.line == k.action.line) = false →
      (AddActionToKeyMap m count kb).2 = count + 1 ∧
      kmFind (AddActionToKeyMap m count kb).1 kb.trigger =
        some ((kmFind m kb.trigger).getD [] ++ [{ kb with bindingIndex := count + 1 }]) ∧
      ∀ n : Nat,
        ((kmFind (addIter kb (n + 1) (m, count)).1 kb.trigger).getD []).countP
          (fun k => kb.action.line == k.action.line) = 1) := by
  refine ⟨AddActionToKeyMap_noop m count kb, fun h => ?_⟩
  obtain ⟨h2, hfind⟩ := AddActionToKeyMap_append m count kb h
  refine ⟨h2, hfind, fun n => ?_⟩
  have hcount0 : ((kmFind m kb.trigger).getD []).countP
      (fun k => kb.action.line == k.action.line) = 0 := by
    rw [List.countP_eq_zero]
    intro a ha
    have := List.any_eq_false.mp h a ha
    simpa using this
  have hone : ((kmFind (AddActionToKeyMap m count kb).1 kb.trigger).getD []).countP
      (fun k => kb.action.line == k.action.line) = 1 := by
    rw [hfind, Option.getD_some, List.countP_append, hcount0]
    simp
  have hany : ((kmFind (AddActionToKeyMap m count kb).1 kb.trigger).getD []).any
      (fun k => kb.action.line == k.action.line) = true := by
    rw [hfind, Option.getD_some, List.any_append]
    simp
  rw [addIter, addIter_noop kb n _ (by
    have : AddActionToKeyMap (m, count).1 (m, count).2 kb = AddActionToKeyMap m count kb := rfl
    rw [this]
    exact hany)]
  exact hone

theorem claim_C4_witness :
    (((kmFind ([] : KeyMap)
        (KeyBinding.trigger ⟨⟨"attack", "", "attack"⟩,
          [⟨97, 0, KeySpaceTag.keyCode⟩], "a", 0⟩)).getD []).any
      (fun k => (Action.mk "attack" "" "attack").line == k.action.line) = false) ∧
    (AddActionToKeyMap [] 0
        ⟨⟨"attack", "", "attack"⟩, [⟨97, 0, KeySpaceTag.keyCode⟩], "a", 0⟩).2 = 1 ∧
    ((kmFind (addIter ⟨⟨"attack", "", "attack"⟩, [⟨97, 0, KeySpaceTag.keyCode⟩], "a", 0⟩ 3
        ([], 0)).1
      (KeyBinding.trigger ⟨⟨"attack", "", "attack"⟩,
        [⟨97, 0, KeySpaceTag.keyCode⟩], "a", 0⟩)).getD []).countP
      (fun k => (Action.mk "attack" "" "attack").line == k.action.line) = 1 := by
  refine ⟨by decide, ?_, ?_⟩
  · exact ((claim_C4_idempotent_insert [] 0
      ⟨⟨"attack", "", "attack"⟩, [⟨97, 0, KeySpaceTag.keyCode⟩], "a", 0⟩).2 (by decide)).1
  · exact (((claim_C4_idempotent_insert [] 0
      ⟨⟨"attack", "", "attack"⟩, [⟨97, 0, KeySpaceTag.keyCode⟩], "a", 0⟩).2
        (by decide)).2).2 2

/-! ## C7: stateful commands are forced to wildcard keysets -/

theorem KeySet.setAnyBit_anyMod (ks : KeySet) : ks.setAnyBit.anyMod = true := by
  have h16 : Nat.testBit 16 4 = true := by decide
  simp [KeySet.setAnyBit, KeySet.anyMod, anyModBit, Nat.testBit_or, h16]

theorem kmFind_some_mem (m : KeyMap) (ks : KeySet) (l : List KeyBinding)
    (h : kmFind m ks = some l) : ∃ e ∈ m, e.1 = ks ∧ e.2 = l := by
  unfold kmFind at h
  cases hf : m.find? (fun e => e.1 == ks) with
  | none => rw [hf] at h; simp at h
  | some e =>
    rw [hf] at h
    refine ⟨e, List.mem_of_find?_eq_some hf, ?_, by simpa using h⟩
    simpa using List.find?_some hf

theorem AddActionToKeyMap_find_line (m : KeyMap) (count : Nat) (kb : KeyBinding) :
    ∃ l, kmFind (AddActionToKeyMap m count kb).1 kb.trigger = some l ∧
      ∃ x ∈ l, x.action.line = kb.action.line ∧
        (x.keyChain = kb.keyChain ∨ ∃ l₀, kmFind m kb.trigger = some l₀ ∧ x ∈ l₀) := by
  cases hf : kmFind m kb.trigger with
  | none =>
    have hA : AddActionToKeyMap m count kb =
        (m ++ [(kb.trigger, [{ kb with bindingIndex := count + 1 }])], count + 1) := by
      simp [AddActionToKeyMap, hf]
    refine ⟨[{ kb with bindingIndex := count + 1 }], ?_, ?_⟩
    · rw [hA]
      exact kmFind_append_self m kb.trigger _ hf
    · exact ⟨{ kb with bindingIndex := count + 1 }, by simp, rfl, Or.inl rfl⟩
  | some l =>
    by_cases hdup : (l.any fun k => kb.action.line == k.action.line) = true
    · have hA : AddActionToKeyMap m count kb = (m, count) := by
        simp [AddActionToKeyMap, hf, hdup]
      refine ⟨l, by rw [hA]; exact hf, ?_⟩
      obtain ⟨k, hk, hkeq⟩ := List.any_eq_true.mp hdup
      exact ⟨k, hk, by simpa using (eq_of_beq hkeq).symm, Or.inr ⟨l, rfl, hk⟩⟩
    · have hA : AddActionToKeyMap m count kb =
          (kmSet m kb.trigger (l ++ [{ kb with bindingIndex := count + 1 }]), count + 1) := by
        simp [AddActionToKeyMap, hf, hdup]
      refine ⟨l ++ [{ kb with bindingIndex := count + 1 }], ?_, ?_⟩
      · rw [hA]
        exact kmFind_kmSet_self m kb.trigger _ l hf
      · exact ⟨{ kb with bindingIndex := count + 1 }, by simp, rfl, Or.inl rfl⟩

/-- C7: a successful bind of a stateful command stores the binding under
the wildcard variant of the parsed trigger chord (whatever modifiers the
shortcut text specified), and the stored binding's own trigger chord has
the Any bit set; a successful bind of a non-stateful command stores the
binding under the trigger chord exactly as written.  The hypotheses
`htrigC`/`htrigS` are the store invariant that every binding sits in the
list keyed by its own trigger chord. -/
theorem claim_C7_stateful_forces_wildcard (p : List Char → Option KeySet)
    (pact : String → Action) (st : BindingsState) (keystr line : String)
    (st' : BindingsState) (hb : Bind p pact st keystr line = (true, st'))
    (htrigC : ∀ e ∈ st.codeBindings, ∀ x ∈ e.2, x.trigger = e.1)
    (htrigS : ∀ e ∈ st.scanBindings, ∀ x ∈ e.2, x.trigger = e.1) :
    ((pact line).command ∈ statefulCommands →
      ∃ chain, ParseKeyChain p keystr.toList none = some chain ∧ chain ≠ [] ∧
        (chain.getLastD dummyKeySet).setAnyBit.anyMod = true ∧
        ∃ l, kmFind
            (if (chain.getLastD dummyKeySet).setAnyBit.isKeyCode then st'.codeBindings
             else st'.scanBindings) (chain.getLastD dummyKeySet).setAnyBit = some l ∧
          ∃ x ∈ l, x.action.line = (pact line).line ∧ x.trigger.anyMod = true) ∧
    ((pact line).command ∉ statefulCommands →
      ∃ chain, ParseKeyChain p keystr.toList none = some chain ∧ chain ≠ [] ∧
        ∃ l, kmFind
            (if (chain.getLastD dummyKeySet).isKeyCode then st'.codeBindings
             else st'.scanBindings) (chain.getLastD dummyKeySet) = some l ∧
          ∃ x ∈ l, x.action.line = (pact line).line ∧
            x.trigger = chain.getLastD dummyKeySet) := by
  unfold Bind at hb
  by_cases hc : (pact line).command = ""
  · rw [if_pos hc] at hb
    exact absurd (congrArg Prod.fst hb) (by simp)
  · rw [if_neg hc] at hb
    cases hpc : ParseKeyChain p keystr.toList none with
    | none =>
      simp only [hpc] at hb
      exact absurd (congrArg Prod.fst hb) (by simp)
    | some chain =>
      simp only [hpc] at hb
      by_cases hnil : chain = []
      · rw [if_pos hnil] at hb
        exact absurd (congrArg Prod.fst hb) (by simp)
      · rw [if_neg hnil] at hb
        constructor
        · intro hs
          rw [if_pos hs] at hb
          refine ⟨chain, rfl, hnil, KeySet.setAnyBit_anyMod _, ?_⟩
          set ks := (chain.getLastD dummyKeySet).setAnyBit with hks
          set kb : KeyBinding :=
            { action := pact line, keyChain := chain.dropLast ++ [ks],
              boundWith := keystr, bindingIndex := 0 } with hkb
          have htrig : kb.trigger = ks := by
            simp [hkb, KeyBinding.trigger, List.getLastD_concat]
          by_cases hkc : ks.isKeyCode
          · rw [if_pos hkc] at hb ⊢
            have hst' : st'.codeBindings =
                (AddActionToKeyMap st.codeBindings st.bindingsCount kb).1 := by
              have := ((Prod.mk.injEq _ _ _ _).mp hb).2
              rw [← this]
            obtain ⟨l, hl, x, hx, hline, hcase⟩ :=
              AddActionToKeyMap_find_line st.codeBindings st.bindingsCount kb
            rw [htrig] at hl
            refine ⟨l, by rw [hst']; exact hl, x, hx, by simpa [hkb] using hline, ?_⟩
            rcases hcase with hchain | ⟨l₀, hl₀, hxl₀⟩
            · have : x.trigger = ks := by
                rw [KeyBinding.trigger, hchain, hkb]
                simp [List.getLastD_concat]
              rw [this]
              exact KeySet.setAnyBit_anyMod _
            · rw [htrig] at hl₀
              obtain ⟨e, he, he1, he2⟩ := kmFind_some_mem _ _ _ hl₀
              have := htrigC e he x (he2 ▸ hxl₀)
              rw [this, he1]
              exact KeySet.setAnyBit_anyMod _
          · rw [if_neg hkc] at hb ⊢
            have hst' : st'.scanBindings =
                (AddActionToKeyMap st.scanBindings st.bindingsCount kb).1 := by
              have := ((Prod.mk.injEq _ _ _ _).mp hb).2
              rw [← this]
            obtain ⟨l, hl, x, hx, hline, hcase⟩ :=
              AddActionToKeyMap_find_line st.scanBindings st.bindingsCount kb
            rw [htrig] at hl
            refine ⟨l, by rw [hst']; exact hl, x, hx, by simpa [hkb] using hline, ?_⟩
            rcases hcase with hchain | ⟨l₀, hl₀, hxl₀⟩
            · have : x.trigger = ks := by
                rw [KeyBinding.trigger, hchain, hkb]
                simp [List.getLastD_concat]
              rw [this]
              exact KeySet.setAnyBit_anyMod _
            · rw [htrig] at hl₀
              obtain ⟨e, he, he1, he2⟩ := kmFind_some_mem _ _ _ hl₀
              have := htrigS e he x (he2 ▸ hxl₀)
              rw [this, he1]
              exact KeySet.setAnyBit_anyMod _
        · intro hs
          rw [if_neg hs] at hb
          refine ⟨chain, rfl, hnil, ?_⟩
          set ks := chain.getLastD dummyKeySet with hks
          set kb : KeyBinding :=
            { action := pact line, keyChain := chain.dropLast ++ [ks],
              boundWith := keystr, bindingIndex := 0 } with hkb
          have htrig : kb.trigger = ks := by
            simp [hkb, KeyBinding.trigger, List.getLastD_concat]
          by_cases hkc : ks.isKeyCode
          · rw [if_pos hkc] at hb ⊢
            have hst' : st'.codeBindings =
                (AddActionToKeyMap st.codeBindings st.bindingsCount kb).1 := by
              have := ((Prod.mk.injEq _ _ _ _).mp hb).2
              rw [← this]
            obtain ⟨l, hl, x, hx, hline, hcase⟩ :=
              AddActionToKeyMap_find_line st.codeBindings st.bindingsCount kb
            rw [htrig] at hl
            refine ⟨l, by rw [hst']; exact hl, x, hx, by simpa [hkb] using hline, ?_⟩
            rcases hcase with hchain | ⟨l₀, hl₀, hxl₀⟩
            · rw [KeyBinding.trigger, hchain, hkb]
              simp [List.getLastD_concat]
            · rw [htrig] at hl₀
              obtain ⟨e, he, he1, he2⟩ := kmFind_some_mem _ _ _ hl₀
              have := htrigC e he x (he2 ▸ hxl₀)
              rw [this, he1]
          · rw [if_neg hkc] at hb ⊢
            have hst' : st'.scanBindings =
                (AddActionToKeyMap st.scanBindings st.bindingsCount kb).1 := by
              have := ((Prod.mk.injEq _ _ _ _).mp hb).2
              rw [← this]
            obtain ⟨l, hl, x, hx, hline, hcase⟩ :=
              AddActionToKeyMap_find_line st.scanBindings st.bindingsCount kb
            rw [htrig] at hl
            refine ⟨l, by rw [hst']; exact hl, x, hx, by simpa [hkb] using hline, ?_⟩
            rcases hcase with hchain | ⟨l₀, hl₀, hxl₀⟩
            · rw [KeyBinding.trigger, hchain, hkb]
              simp [List.getLastD_concat]
            · rw [htrig] at hl₀
              obtain ⟨e, he, he1, he2⟩ := kmFind_some_mem _ _ _ hl₀
              have := htrigS e he x (he2 ▸ hxl₀)
              rw [this, he1]

/-- Concrete key-set parser used by witnesses: recognises only the
shortcut text `up`, with the shift modifier bit set. -/
def upParser : List Char → Option KeySet :=
  fun s => if s = ['u', 'p'] then some ⟨273, 8, KeySpaceTag.keyCode⟩ else none

/-- Concrete action constructor used by witnesses: every line is the
command `moveforward` (a stateful command). -/
def moveForwardAction : String → Action := fun l => ⟨"moveforward", "", l⟩

theorem claim_C7_witness :
    Bind upParser moveForwardAction ⟨[], [], 0⟩ "up" "moveforward" =
      (true, ⟨[(⟨273, 24, KeySpaceTag.keyCode⟩,
        [⟨⟨"moveforward", "", "moveforward"⟩, [⟨273, 24, KeySpaceTag.keyCode⟩], "up", 1⟩])],
        [], 1⟩) ∧
    (moveForwardAction "moveforward").command ∈ statefulCommands ∧
    (∃ chain, ParseKeyChain upParser "up".toList none = some chain ∧ chain ≠ [] ∧
      (chain.getLastD dummyKeySet).setAnyBit.anyMod = true ∧
      ∃ l, kmFind
          (if (chain.getLastD dummyKeySet).setAnyBit.isKeyCode then
            (⟨[(⟨273, 24, KeySpaceTag.keyCode⟩,
              [⟨⟨"moveforward", "", "moveforward"⟩, [⟨273, 24, KeySpaceTag.keyCode⟩], "up", 1⟩])],
              [], 1⟩ : BindingsState).codeBindings
           else
            (⟨[(⟨273, 24, KeySpaceTag.keyCode⟩,
              [⟨⟨"moveforward", "", "moveforward"⟩, [⟨273, 24, KeySpaceTag.keyCode⟩], "up", 1⟩])],
              [], 1⟩ : BindingsState).scanBindings)
          (chain.getLastD dummyKeySet).setAnyBit = some l ∧
        ∃ x ∈ l, x.action.line = (moveForwardAction "moveforward").line ∧
          x.trigger.anyMod = true) :=
  ⟨by decide, by decide,
    (claim_C7_stateful_forces_wildcard upParser moveForwardAction ⟨[], [], 0⟩ "up"
      "moveforward" _ (by decide) (by decide) (by decide)).1 (by decide)⟩

/-! ## C6: `unbindall` installs the baseline `enter → chat` binding -/

theorem ParseKeyChain_no_comma (p : List Char → Option KeySet) (cs : List Char)
    (h : cs.countP (fun c => c == ',') = 0) :
    ParseKeyChain p cs none = ParseSingleChain p cs := by
  have hidx : commaIdxs cs none = [] := by
    rw [commaIdxs, List.filter_eq_nil_iff]
    intro i hi
    simp only [Option.elim, Bool.and_true]
    intro hcomma
    have hlt : i < cs.length := by simpa using hi
    have hmem : cs.getD i ' ' ∈ cs := by
      rw [List.getD_eq_getElem _ _ hlt]
      exact List.getElem_mem hlt
    have hpos : 0 < cs.countP (fun c => c == ',') :=
      List.countP_pos_iff.mpr ⟨_, hmem, hcomma⟩
    omega
  rw [ParseKeyChain, commaCountLE, hidx]
  cases hs : ParseSingleChain p cs with
  | some kc => simp [ParseKeyChainF, hs]
  | none => simp [ParseKeyChainF, hs, rfindComma, hidx]

/-- C6: the `unbindall` command branch empties both keyspace stores,
resets the global binding index counter to zero, and installs exactly one
baseline binding of `enter` to the chat action; resolving the Enter key
code with no modifiers (against any scan code) immediately afterwards
yields exactly the chat binding.  The hypotheses fix the behaviour of the
external key-set parser on `"enter"` and of the `Action` constructor on
`"chat"`. -/
theorem claim_C6_unbindall_baseline (p : List Char → Option KeySet)
    (pact : String → Action) (st : BindingsState) (ek : Int) (hek : 0 ≤ ek)
    (hp : p "enter".toList = some ⟨ek, 0, KeySpaceTag.keyCode⟩)
    (hc : (pact "chat").command = "chat") :
    unbindAll p pact st =
      ⟨[(⟨ek, 0, KeySpaceTag.keyCode⟩,
         [⟨pact "chat", [⟨ek, 0, KeySpaceTag.keyCode⟩], "enter", 1⟩])], [], 1⟩ ∧
    ∀ sc : Int,
      GetKeyBindingListCodes specChainFit (unbindAll p pact st) ek sc 0 =
        [⟨pact "chat", [⟨ek, 0, KeySpaceTag.keyCode⟩], "enter", 1⟩] := by
  have hsplit : splitOnComma "enter".toList = ["enter".toList] := by decide
  have hsingle : ParseSingleChain p "enter".toList =
      some [⟨ek, 0, KeySpaceTag.keyCode⟩] := by
    have hp' : p ['e', 'n', 't', 'e', 'r'] =
        some ⟨ek, 0, KeySpaceTag.keyCode⟩ := hp
    rw [ParseSingleChain, hsplit, List.mapM_cons, List.mapM_nil]
    simp [hp']
  have hchain : ParseKeyChain p "enter".toList none =
      some [⟨ek, 0, KeySpaceTag.keyCode⟩] := by
    rw [ParseKeyChain_no_comma p _ (by decide), hsingle]
  have hne : (pact "chat").command ≠ "" := by rw [hc]; decide
  have hns : (pact "chat").command ∉ statefulCommands := by rw [hc]; decide
  have hst : unbindAll p pact st =
      ⟨[(⟨ek, 0, KeySpaceTag.keyCode⟩,
         [⟨pact "chat", [⟨ek, 0, KeySpaceTag.keyCode⟩], "enter", 1⟩])], [], 1⟩ := by
    rw [unbindAll, Bind]
    rw [if_neg hne]
    simp only [hchain]
    rw [if_neg (by simp)]
    rw [if_neg hns]
    simp [KeySet.isKeyCode, AddActionToKeyMap, KeyBinding.trigger, kmFind]
  refine ⟨hst, fun sc => ?_⟩
  rw [hst]
  have hanyE : (⟨ek, 0, KeySpaceTag.keyCode⟩ : KeySet).anyMod = false := by
    simp [KeySet.anyMod]
  have hanyS : (⟨sc, 0, KeySpaceTag.scanCode⟩ : KeySet).anyMod = false := by
    simp [KeySet.anyMod]
  have hneg : ¬ (ek < 0) := not_lt.mpr hek
  set kb1 : KeyBinding :=
    ⟨pact "chat", [⟨ek, 0, KeySpaceTag.keyCode⟩], "enter", 1⟩ with hkb1
  set st1 : BindingsState :=
    ⟨[(⟨ek, 0, KeySpaceTag.keyCode⟩, [kb1])], [], 1⟩ with hst1
  have h1 : GetKeyBindingListKS st1 ⟨ek, 0, KeySpaceTag.keyCode⟩ false = [kb1] := by
    simp [GetKeyBindingListKS, hneg, KeySet.isKeyCode, kmFind, hst1]
  have hne16 : ¬ ((⟨ek, 0, KeySpaceTag.keyCode⟩ : KeySet) =
      ⟨ek, 16, KeySpaceTag.keyCode⟩) := by simp
  have h2 : GetKeyBindingListKS st1 ⟨ek, 0, KeySpaceTag.keyCode⟩ true = [] := by
    simp [GetKeyBindingListKS, hneg, KeySet.isKeyCode, KeySet.setAnyBit, anyModBit,
      kmFind, hst1, List.find?_cons, beq_eq_false_iff_ne.mpr hne16]
  have h3 : ∀ b, GetKeyBindingListKS st1 ⟨sc, 0, KeySpaceTag.scanCode⟩ b = [] := by
    intro b
    by_cases hsc : sc < 0
    · simp [GetKeyBindingListKS, hsc]
    · simp [GetKeyBindingListKS, hsc, KeySet.isKeyCode, kmFind, hst1]
  have hfit : specChainFit [⟨ek, 0, KeySpaceTag.keyCode⟩]
      [⟨ek, 0, KeySpaceTag.keyCode⟩] = true := by
    simp [specChainFit, specKeySetMatch, KeySet.anyMod]
  have hfilter : filterByKeychain specChainFit [kb1]
      [⟨ek, 0, KeySpaceTag.keyCode⟩] = [kb1] := by
    simp [filterByKeychain, hkb1, hfit]
  have hm1 : MergeActionListsByTrigger [kb1] [] [] = [kb1] := by
    simp [MergeActionListsByTrigger, dedupeMerge, mergeComp]
  have hm2 : MergeActionListsByTrigger [] [] [kb1] = [kb1] := by
    simp [MergeActionListsByTrigger]
  have hback : ([⟨ek, 0, KeySpaceTag.keyCode⟩] : List KeySet).getLastD dummyKeySet =
      ⟨ek, 0, KeySpaceTag.keyCode⟩ := rfl
  have hbackS : ([⟨sc, 0, KeySpaceTag.scanCode⟩] : List KeySet).getLastD dummyKeySet =
      ⟨sc, 0, KeySpaceTag.scanCode⟩ := rfl
  have hfilter0 : ∀ kcx, filterByKeychain specChainFit [] kcx = [] := fun _ => rfl
  rw [GetKeyBindingListCodes, GetKeyBindingListChains]
  simp only [hback, hbackS, hanyE, hanyS, Bool.not_false, if_true, h1, h2, h3,
    hfilter, hfilter0, hm1, hm2]

/-- Concrete key-set parser used by the `unbindall` witness: recognises
only the shortcut text `enter` as key code 13. -/
def enterParser : List Char → Option KeySet :=
  fun s => if s = "enter".toList then some ⟨13, 0, KeySpaceTag.keyCode⟩ else none

/-- Concrete action constructor used by the `unbindall` witness. -/
def chatAction : String → Action := fun l => ⟨"chat", "", l⟩

theorem claim_C6_witness :
    (0 : Int) ≤ 13 ∧
    enterParser "enter".toList = some ⟨13, 0, KeySpaceTag.keyCode⟩ ∧
    (chatAction "chat").command = "chat" ∧
    unbindAll enterParser chatAction ⟨[], [], 7⟩ =
      ⟨[(⟨13, 0, KeySpaceTag.keyCode⟩,
        [⟨chatAction "chat", [⟨13, 0, KeySpaceTag.keyCode⟩], "enter", 1⟩])], [], 1⟩ ∧
    GetKeyBindingListCodes specChainFit (unbindAll enterParser chatAction ⟨[], [], 7⟩)
        13 40 0 =
      [⟨chatAction "chat", [⟨13, 0, KeySpaceTag.keyCode⟩], "enter", 1⟩] :=
  ⟨by decide, by decide, rfl,
    (claim_C6_unbindall_baseline enterParser chatAction ⟨[], [], 7⟩ 13 (by decide)
      (by decide) rfl).1,
    (claim_C6_unbindall_baseline enterParser chatAction ⟨[], [], 7⟩ 13 (by decide)
      (by decide) rfl).2 40⟩

/-! ## C1: the merge resolves cross-keyspace duplicates -/

theorem mergeComp_countP (lt : KeyBinding → KeyBinding → Bool) (q : KeyBinding → Bool) :
    ∀ as bs : List KeyBinding,
      (mergeComp lt as bs).countP q = as.countP q + bs.countP q := by
  intro as
  induction as with
  | nil => intro bs; simp [mergeComp]
  | cons a as iha =>
    intro bs
    induction bs with
    | nil => simp [mergeComp]
    | cons b bs ihb =>
      rw [mergeComp]
      by_cases hlt : lt b a
      · rw [if_pos hlt]
        simp only [List.tail_cons, List.countP_cons, ihb]
        omega
      · rw [if_neg hlt]
        simp only [List.countP_cons, iha (b :: bs), List.countP_cons]
        omega

theorem mergeComp_mem (lt : KeyBinding → KeyBinding → Bool) (x : KeyBinding) :
    ∀ as bs : List KeyBinding,
      x ∈ mergeComp lt as bs ↔ x ∈ as ∨ x ∈ bs := by
  intro as
  induction as with
  | nil => intro bs; simp [mergeComp]
  | cons a as iha =>
    intro bs
    induction bs with
    | nil => simp [mergeComp]
    | cons b bs ihb =>
      rw [mergeComp]
      by_cases hlt : lt b a
      · rw [if_pos hlt]
        simp only [List.tail_cons, List.mem_cons, ihb, List.mem_cons]
        tauto
      · rw [if_neg hlt]
        simp only [List.mem_cons, iha (b :: bs), List.mem_cons]
        tauto

theorem dedupeMerge_cons_none (as : List KeyBinding) (b : KeyBinding)
    (bs : List KeyBinding)
    (hf : as.find? (fun a => b.action.line == a.action.line) = none) :
    dedupeMerge as (b :: bs) =
      ((dedupeMerge as bs).1, b :: (dedupeMerge as bs).2) := by
  simp only [dedupeMerge, hf]

theorem dedupeMerge_cons_skip (as : List KeyBinding) (b : KeyBinding)
    (bs : List KeyBinding) (a : KeyBinding)
    (hf : as.find? (fun a => b.action.line == a.action.line) = some a)
    (hge : b.bindingIndex ≥ a.bindingIndex) :
    dedupeMerge as (b :: bs) = dedupeMerge as bs := by
  simp only [dedupeMerge, hf]
  rw [if_pos hge]

theorem dedupeMerge_cons_erase (as : List KeyBinding) (b : KeyBinding)
    (bs : List KeyBinding) (a : KeyBinding)
    (hf : as.find? (fun a => b.action.line == a.action.line) = some a)
    (hge : ¬ (b.bindingIndex ≥ a.bindingIndex)) :
    dedupeMerge as (b :: bs) =
      ((dedupeMerge (as.eraseP (fun x => b.action.line == x.action.line)) bs).1,
       b :: (dedupeMerge (as.eraseP (fun x => b.action.line == x.action.line)) bs).2) := by
  simp only [dedupeMerge, hf]
  rw [if_neg hge]

theorem dedupeMerge_fst_sublist :
    ∀ (bs as : List KeyBinding), (dedupeMerge as bs).1.Sublist as := by
  intro bs
  induction bs with
  | nil => intro as; exact List.Sublist.refl as
  | cons b bs ih =>
    intro as
    cases hf : as.find? (fun a => b.action.line == a.action.line) with
    | none =>
      rw [dedupeMerge_cons_none as b bs hf]
      exact ih as
    | some a =>
      by_cases hge : b.bindingIndex ≥ a.bindingIndex
      · rw [dedupeMerge_cons_skip as b bs a hf hge]
        exact ih as
      · rw [dedupeMerge_cons_erase as b bs a hf hge]
        exact (ih _).trans (List.eraseP_sublist as)

theorem dedupeMerge_snd_sublist :
    ∀ (bs as : List KeyBinding), (dedupeMerge as bs).2.Sublist bs := by
  intro bs
  induction bs with
  | nil => intro as; exact List.Sublist.refl []
  | cons b bs ih =>
    intro as
    cases hf : as.find? (fun a => b.action.line == a.action.line) with
    | none =>
      rw [dedupeMerge_cons_none as b bs hf]
      exact (ih as).cons₂ b
    | some a =>
      by_cases hge : b.bindingIndex ≥ a.bindingIndex
      · rw [dedupeMerge_cons_skip as b bs a hf hge]
        exact (ih as).cons b
      · rw [dedupeMerge_cons_erase as b bs a hf hge]
        exact (ih _).cons₂ b

theorem find?_line_unique (s : String) (a₀ : KeyBinding) :
    ∀ as : List KeyBinding,
      as.Pairwise (fun x y => x.action.line ≠ y.action.line) →
      a₀ ∈ as → a₀.action.line = s →
      as.find? (fun a => s == a.action.line) = some a₀ := by
  intro as
  induction as with
  | nil => intro _ h; exact absurd h (List.not_mem_nil a₀)
  | cons h t ih =>
    intro hpw hmem hline
    by_cases hbeq : (s == h.action.line) = true
    · have hh : s = h.action.line := eq_of_beq hbeq
      rcases List.mem_cons.mp hmem with heq | htail
      · simp [List.find?_cons, hbeq, heq]
      · exact absurd (hh.symm.trans hline.symm)
          ((List.pairwise_cons.mp hpw).1 a₀ htail)
    · rw [Bool.not_eq_true] at hbeq
      have hne : a₀ ≠ h := by
        intro heq
        rw [heq] at hline
        exact (beq_eq_false_iff_ne.mp hbeq) hline.symm
      have htail : a₀ ∈ t := by
        rcases List.mem_cons.mp hmem with heq | htail
        · exact absurd heq hne
        · exact htail
      simp only [List.find?_cons, hbeq]
      exact ih (List.Pairwise.of_cons hpw) htail hline

theorem eraseP_line_none (s : String) :
    ∀ as : List KeyBinding,
      as.Pairwise (fun x y => x.action.line ≠ y.action.line) →
      (∃ a₀ ∈ as, a₀.action.line = s) →
      ∀ x ∈ as.eraseP (fun a => s == a.action.line), x.action.line ≠ s := by
  intro as
  induction as with
  | nil => intro _ ⟨a₀, h, _⟩; exact absurd h (List.not_mem_nil a₀)
  | cons h t ih =>
    intro hpw hex x hx
    rw [List.eraseP_cons] at hx
    by_cases hbeq : (s == h.action.line) = true
    · rw [hbeq, cond_true] at hx
      have := (List.pairwise_cons.mp hpw).1 x hx
      rw [← eq_of_beq hbeq] at this
      exact fun hc => this (by rw [hc])
    · rw [Bool.not_eq_true] at hbeq
      rw [hbeq, cond_false] at hx
      rcases List.mem_cons.mp hx with heq | htail
      · intro hc
        rw [heq] at hc
        exact (by simpa using hbeq : ¬ s = h.action.line) hc.symm
      · obtain ⟨a₀, ha₀, hline⟩ := hex
        have ha₀t : a₀ ∈ t := by
          rcases List.mem_cons.mp ha₀ with heq' | htail'
          · exfalso
            rw [heq'] at hline
            exact (beq_eq_false_iff_ne.mp hbeq) hline.symm
          · exact htail'
        exact ih (List.Pairwise.of_cons hpw) ⟨a₀, ha₀t, hline⟩ x htail

theorem dedupeMerge_fst_preserve (a₀ : KeyBinding) :
    ∀ (bs as : List KeyBinding), a₀ ∈ as →
      (∀ b ∈ bs, b.action.line ≠ a₀.action.line) →
      a₀ ∈ (dedupeMerge as bs).1 := by
  intro bs
  induction bs with
  | nil => intro as ha _; exact ha
  | cons b bs ih =>
    intro as ha hne
    cases hf : as.find? (fun a => b.action.line == a.action.line) with
    | none =>
      rw [dedupeMerge_cons_none as b bs hf]
      exact ih as ha (fun b' hb' => hne b' (List.mem_cons_of_mem b hb'))
    | some a =>
      by_cases hge : b.bindingIndex ≥ a.bindingIndex
      · rw [dedupeMerge_cons_skip as b bs a hf hge]
        exact ih as ha (fun b' hb' => hne b' (List.mem_cons_of_mem b hb'))
      · rw [dedupeMerge_cons_erase as b bs a hf hge]
        refine ih _ ?_ (fun b' hb' => hne b' (List.mem_cons_of_mem b hb'))
        refine (List.mem_eraseP_of_neg ?_).mpr ha
        simp only [beq_iff_eq]
        exact fun hc => hne b (List.mem_cons_self b bs) hc

theorem countP_line_one (s : String) (x₀ : KeyBinding) :
    ∀ l : List KeyBinding,
      l.Pairwise (fun x y => x.action.line ≠ y.action.line) →
      x₀ ∈ l → x₀.action.line = s →
      l.countP (fun kb => kb.action.line == s) = 1 := by
  intro l
  induction l with
  | nil => intro _ h; exact absurd h (List.not_mem_nil x₀)
  | cons h t ih =>
    intro hpw hmem hline
    rcases List.mem_cons.mp hmem with heq | htail
    · have hzero : t.countP (fun kb => kb.action.line == s) = 0 := by
        rw [List.countP_eq_zero]
        intro a ha
        have hpair := (List.pairwise_cons.mp hpw).1 a ha
        have hs : s ≠ a.action.line := by
          rw [← hline, heq]
          exact hpair
        simp only [beq_iff_eq]
        exact fun hc => hs hc.symm
      rw [List.countP_cons, hzero]
      simp [← heq, hline]
    · have hone := ih (List.Pairwise.of_cons hpw) htail hline
      rw [List.countP_cons, hone]
      have := (List.pairwise_cons.mp hpw).1 x₀ htail
      rw [hline] at this
      simp [beq_eq_false_iff_ne.mpr this]

theorem dedupeMerge_dup (a₀ b₀ : KeyBinding) :
    ∀ (bs as : List KeyBinding),
      as.Pairwise (fun x y => x.action.line ≠ y.action.line) →
      bs.Pairwise (fun x y => x.action.line ≠ y.action.line) →
      a₀ ∈ as → b₀ ∈ bs → a₀.action.line = b₀.action.line →
      a₀.bindingIndex ≠ b₀.bindingIndex →
      (a₀.bindingIndex < b₀.bindingIndex →
        a₀ ∈ (dedupeMerge as bs).1 ∧
        ∀ x ∈ (dedupeMerge as bs).2, x.action.line ≠ b₀.action.line) ∧
      (b₀.bindingIndex < a₀.bindingIndex →
        b₀ ∈ (dedupeMerge as bs).2 ∧
        ∀ x ∈ (dedupeMerge as bs).1, x.action.line ≠ b₀.action.line) := by
  intro bs
  induction bs with
  | nil => intro as _ _ _ hb; exact absurd hb (List.not_mem_nil b₀)
  | cons b bs ih =>
    intro as hA hB ha hb hl hne
    by_cases hbl : b.action.line = b₀.action.line
    · -- the head of the B-list is the duplicate itself
      have hbb : b = b₀ := by
        rcases List.mem_cons.mp hb with heq | htail
        · exact heq.symm
        · exact absurd hbl ((List.pairwise_cons.mp hB).1 b₀ htail)
      have hfind : as.find? (fun a => b.action.line == a.action.line) = some a₀ :=
        find?_line_unique _ a₀ as hA ha (by rw [hl, ← hbl])
      have hblines : ∀ x ∈ bs, x.action.line ≠ b₀.action.line := by
        intro x hx
        have hpair := (List.pairwise_cons.mp hB).1 x hx
        rw [hbl] at hpair
        exact hpair.symm
      constructor
      · intro hlt
        have hge : b.bindingIndex ≥ a₀.bindingIndex := by
          rw [hbb]; omega
        rw [dedupeMerge_cons_skip as b bs a₀ hfind hge]
        constructor
        · exact dedupeMerge_fst_preserve a₀ bs as ha
            (fun x hx => by rw [hl]; exact hblines x hx)
        · intro x hx
          exact hblines x ((dedupeMerge_snd_sublist bs as).subset hx)
      · intro hlt
        have hge : ¬ (b.bindingIndex ≥ a₀.bindingIndex) := by
          rw [hbb]; omega
        rw [dedupeMerge_cons_erase as b bs a₀ hfind hge]
        constructor
        · simp [hbb]
        · intro x hx
          have hall := eraseP_line_none b.action.line as hA
            ⟨a₀, ha, by rw [hl, ← hbl]⟩
          have hxe := hall x
            ((dedupeMerge_fst_sublist bs
              (List.eraseP (fun x => b.action.line == x.action.line) as)).subset hx)
          rw [hbl] at hxe
          exact hxe
    · -- the head of the B-list is not the duplicate
      have hbt : b₀ ∈ bs := by
        rcases List.mem_cons.mp hb with heq | htail
        · exact absurd (by rw [heq]) hbl
        · exact htail
      cases hf : as.find? (fun a => b.action.line == a.action.line) with
      | none =>
        rw [dedupeMerge_cons_none as b bs hf]
        obtain ⟨c1, c2⟩ := ih as hA (List.Pairwise.of_cons hB) ha hbt hl hne
        constructor
        · intro hlt
          refine ⟨(c1 hlt).1, fun x hx => ?_⟩
          rcases List.mem_cons.mp hx with heq | htail
          · rw [heq]; exact hbl
          · exact (c1 hlt).2 x htail
        · intro hlt
          exact ⟨List.mem_cons_of_mem b (c2 hlt).1, (c2 hlt).2⟩
      | some a =>
        by_cases hge : b.bindingIndex ≥ a.bindingIndex
        · rw [dedupeMerge_cons_skip as b bs a hf hge]
          exact ih as hA (List.Pairwise.of_cons hB) ha hbt hl hne
        · rw [dedupeMerge_cons_erase as b bs a hf hge]
          have ha' : a₀ ∈ as.eraseP (fun a => b.action.line == a.action.line) := by
            refine (List.mem_eraseP_of_neg ?_).mpr ha
            simp only [beq_iff_eq]
            rw [hl]
            exact fun hc => hbl hc
          obtain ⟨c1, c2⟩ := ih _ (hA.sublist (List.eraseP_sublist as))
            (List.Pairwise.of_cons hB) ha' hbt hl hne
          constructor
          · intro hlt
            refine ⟨(c1 hlt).1, fun x hx => ?_⟩
            rcases List.mem_cons.mp hx with heq | htail
            · rw [heq]; exact hbl
            · exact (c1 hlt).2 x htail
          · intro hlt
            exact ⟨List.mem_cons_of_mem b (c2 hlt).1, (c2 hlt).2⟩

/-- C1: merging two filtered candidate lists (each internally
duplicate-free, each sorted by binding index, both of the same wildcard
status, with globally distinct binding indices) yields exactly one
occurrence of every action source line present in both lists — the
binding with the lower global binding index — and the duplicate with the
higher index is not in the merged result, even when it came from the
first (already appended) list. -/
theorem claim_C1_merge_dedup (A B : List KeyBinding)
    (hA : A.Pairwise (fun x y => x.action.line ≠ y.action.line))
    (hB : B.Pairwise (fun x y => x.action.line ≠ y.action.line))
    (_hsA : A.Pairwise (fun x y => x.bindingIndex < y.bindingIndex))
    (_hsB : B.Pairwise (fun x y => x.bindingIndex < y.bindingIndex))
    (_hsame : ∀ x ∈ A ++ B, ∀ y ∈ A ++ B, x.trigger.anyMod = y.trigger.anyMod)
    (hIdx : ∀ a ∈ A, ∀ b ∈ B, a.bindingIndex ≠ b.bindingIndex)
    (a₀ b₀ : KeyBinding) (ha : a₀ ∈ A) (hb : b₀ ∈ B)
    (hl : a₀.action.line = b₀.action.line) :
    ((MergeActionListsByTrigger A B []).countP
        (fun kb => kb.action.line == b₀.action.line) = 1) ∧
    (a₀.bindingIndex < b₀.bindingIndex →
      a₀ ∈ MergeActionListsByTrigger A B [] ∧
      b₀ ∉ MergeActionListsByTrigger A B []) ∧
    (b₀.bindingIndex < a₀.bindingIndex →
      b₀ ∈ MergeActionListsByTrigger A B [] ∧
      a₀ ∉ MergeActionListsByTrigger A B []) := by
  have hAne : A ≠ [] := by intro hc; rw [hc] at ha; exact (List.not_mem_nil a₀) ha
  have hne : a₀.bindingIndex ≠ b₀.bindingIndex := hIdx a₀ ha b₀ hb
  obtain ⟨c1, c2⟩ := dedupeMerge_dup a₀ b₀ B A hA hB ha hb hl hne
  have hmerge : MergeActionListsByTrigger A B [] =
      mergeComp compareActionByTriggerOrder (dedupeMerge A B).1 (dedupeMerge A B).2 := by
    rw [MergeActionListsByTrigger, if_neg hAne, List.nil_append]
  have hsub1 := dedupeMerge_fst_sublist B A
  have hsub2 := dedupeMerge_snd_sublist B A
  refine ⟨?_, ?_, ?_⟩
  · rw [hmerge, mergeComp_countP]
    by_cases hlt : a₀.bindingIndex < b₀.bindingIndex
    · obtain ⟨hmem1, hpure2⟩ := c1 hlt
      have h1 : (dedupeMerge A B).1.countP (fun kb => kb.action.line == b₀.action.line) = 1 :=
        countP_line_one _ a₀ _ (hA.sublist hsub1) hmem1 hl
      have h2 : (dedupeMerge A B).2.countP (fun kb => kb.action.line == b₀.action.line) = 0 := by
        rw [List.countP_eq_zero]
        intro x hx
        simpa using hpure2 x hx
      omega
    · obtain ⟨hmem2, hpure1⟩ := c2 (by omega)
      have h2 : (dedupeMerge A B).2.countP (fun kb => kb.action.line == b₀.action.line) = 1 :=
        countP_line_one _ b₀ _ (hB.sublist hsub2) hmem2 rfl
      have h1 : (dedupeMerge A B).1.countP (fun kb => kb.action.line == b₀.action.line) = 0 := by
        rw [List.countP_eq_zero]
        intro x hx
        simpa using hpure1 x hx
      omega
  · intro hlt
    obtain ⟨hmem1, hpure2⟩ := c1 hlt
    constructor
    · rw [hmerge, mergeComp_mem]
      exact Or.inl hmem1
    · rw [hmerge, mergeComp_mem]
      rintro (hc | hc)
      · have hbA : b₀ ∈ A := hsub1.subset hc
        exact hIdx b₀ hbA b₀ hb rfl
      · exact hpure2 b₀ hc rfl
  · intro hlt
    obtain ⟨hmem2, hpure1⟩ := c2 hlt
    constructor
    · rw [hmerge, mergeComp_mem]
      exact Or.inr hmem2
    · rw [hmerge, mergeComp_mem]
      rintro (hc | hc)
      · exact hpure1 a₀ hc hl
      · have haB : a₀ ∈ B := hsub2.subset hc
        exact hIdx a₀ ha a₀ haB rfl

/-- Witness bindings for the merge claims: the same action line bound to
a key-code keyset (index 1) and a scan-code keyset (index 2). -/
def c1A : KeyBinding := ⟨⟨"attack", "", "attack"⟩, [⟨97, 0, KeySpaceTag.keyCode⟩], "a", 1⟩

/-- See `c1A`. -/
def c1B : KeyBinding := ⟨⟨"attack", "", "attack"⟩, [⟨4, 0, KeySpaceTag.scanCode⟩], "sc_a", 2⟩

theorem claim_C1_witness :
    c1A.bindingIndex < c1B.bindingIndex ∧
    (MergeActionListsByTrigger [c1A] [c1B] []).countP
      (fun kb => kb.action.line == c1B.action.line) = 1 ∧
    c1A ∈ MergeActionListsByTrigger [c1A] [c1B] [] ∧
    c1B ∉ MergeActionListsByTrigger [c1A] [c1B] [] :=
  ⟨by decide,
   (claim_C1_merge_dedup [c1A] [c1B] (by decide) (by decide) (by decide) (by decide)
      (by decide) (by decide) c1A c1B (by decide) (by decide) (by decide)).1,
   ((claim_C1_merge_dedup [c1A] [c1B] (by decide) (by decide) (by decide) (by decide)
      (by decide) (by decide) c1A c1B (by decide) (by decide) (by decide)).2.1
      (by decide)).1,
   ((claim_C1_merge_dedup [c1A] [c1B] (by decide) (by decide) (by decide) (by decide)
      (by decide) (by decide) c1A c1B (by decide) (by decide) (by decide)).2.1
      (by decide)).2⟩

/-! ## C2: resolution results are ordered by trigger order -/

/-- Well-formedness of one keyspace store, maintained by
`AddActionToKeyMap`: every binding sits in the list keyed by its own
trigger chord, and each list is strictly increasing in binding index
(bindings are appended with a freshly incremented global counter). -/
def MapWF (m : KeyMap) : Prop :=
  (∀ e ∈ m, ∀ kb ∈ e.2, kb.trigger = e.1) ∧
  (∀ e ∈ m, e.2.Pairwise (fun a b => a.bindingIndex < b.bindingIndex))

/-- Well-formedness of the whole state: both stores are well-formed and
global binding indices never repeat across the two stores. -/
def StateWF (st : BindingsState) : Prop :=
  MapWF st.codeBindings ∧ MapWF st.scanBindings ∧
  ∀ e₁ ∈ st.codeBindings, ∀ e₂ ∈ st.scanBindings,
    ∀ a ∈ e₁.2, ∀ b ∈ e₂.2, a.bindingIndex ≠ b.bindingIndex

/-- The order the claim asserts on resolution results: exact-modifier
triggers before wildcard triggers, and lower binding index first among
equal wildcard status. -/
def triggerOrder (a b : KeyBinding) : Prop :=
  (a.trigger.anyMod = false ∧ b.trigger.anyMod = true) ∨
  (a.trigger.anyMod = b.trigger.anyMod ∧ a.bindingIndex < b.bindingIndex)

theorem getKBL_mem_entry (st : BindingsState) (ks : KeySet) (fa : Bool)
    (x : KeyBinding) (hx : x ∈ GetKeyBindingListKS st ks fa) :
    ∃ e ∈ (if ks.isKeyCode then st.codeBindings else st.scanBindings),
      e.1 = (if fa then ks.setAnyBit else ks) ∧ x ∈ e.2 := by
  unfold GetKeyBindingListKS at hx
  by_cases hneg : ks.key < 0
  · rw [if_pos hneg] at hx
    exact absurd hx (List.not_mem_nil x)
  · rw [if_neg hneg] at hx
    cases hf : kmFind (if ks.isKeyCode then st.codeBindings else st.scanBindings)
        (if fa then ks.setAnyBit else ks) with
    | none =>
      simp only [hf, Option.getD_none] at hx
      exact absurd hx (List.not_mem_nil x)
    | some l =>
      simp only [hf, Option.getD_some] at hx
      obtain ⟨e, he, he1, he2⟩ := kmFind_some_mem _ _ _ hf
      exact ⟨e, he, he1, by rw [he2]; exact hx⟩

theorem getKBL_sorted (st : BindingsState) (ks : KeySet) (fa : Bool)
    (hWF : MapWF (if ks.isKeyCode then st.codeBindings else st.scanBindings)) :
    (GetKeyBindingListKS st ks fa).Pairwise
      (fun a b => a.bindingIndex < b.bindingIndex) := by
  unfold GetKeyBindingListKS
  by_cases hneg : ks.key < 0
  · simp [hneg]
  · rw [if_neg hneg]
    cases hf : kmFind (if ks.isKeyCode then st.codeBindings else st.scanBindings)
        (if fa then ks.setAnyBit else ks) with
    | none => simp [hf]
    | some l =>
      obtain ⟨e, he, _, he2⟩ := kmFind_some_mem _ _ _ hf
      simp only [hf, Option.getD_some]
      simpa [he2] using hWF.2 e he

theorem setAnyBit_isKeyCode (ks : KeySet) : ks.setAnyBit.isKeyCode = ks.isKeyCode := rfl

theorem mergeComp_sorted (u : Bool) :
    ∀ as bs : List KeyBinding,
      (∀ x ∈ as, x.trigger.anyMod = u) → (∀ x ∈ bs, x.trigger.anyMod = u) →
      as.Pairwise (fun a c => a.bindingIndex < c.bindingIndex) →
      bs.Pairwise (fun a c => a.bindingIndex < c.bindingIndex) →
      (∀ a ∈ as, ∀ b ∈ bs, a.bindingIndex ≠ b.bindingIndex) →
      (mergeComp compareActionByTriggerOrder as bs).Pairwise
        (fun a c => a.bindingIndex < c.bindingIndex) := by
  intro as
  induction as with
  | nil => intro bs _ _ _ hsb _; simpa [mergeComp] using hsb
  | cons a as iha =>
    intro bs
    induction bs with
    | nil => intro _ _ hsa _ _; simpa [mergeComp] using hsa
    | cons b bs ihb =>
      intro hau hbu hsa hsb hne
      have hcmp : compareActionByTriggerOrder b a =
          decide (b.bindingIndex < a.bindingIndex) := by
        simp [compareActionByTriggerOrder, hau a (List.mem_cons_self a as),
          hbu b (List.mem_cons_self b bs)]
      rw [mergeComp, hcmp]
      simp only [decide_eq_true_eq]
      by_cases hlt : b.bindingIndex < a.bindingIndex
      · rw [if_pos hlt]
        simp only [List.tail_cons]
        rw [List.pairwise_cons]
        constructor
        · intro x hx
          rcases (mergeComp_mem _ x (a :: as) bs).mp hx with hxa | hxb
          · rcases List.mem_cons.mp hxa with rfl | hxas
            · exact hlt
            · exact hlt.trans ((List.pairwise_cons.mp hsa).1 x hxas)
          · exact (List.pairwise_cons.mp hsb).1 x hxb
        · exact ihb hau (fun x hx => hbu x (List.mem_cons_of_mem b hx)) hsa
            (List.Pairwise.of_cons hsb)
            (fun a' ha' b' hb' => hne a' ha' b' (List.mem_cons_of_mem b hb'))
      · rw [if_neg hlt]
        have halt : a.bindingIndex < b.bindingIndex := by
          have := hne a (List.mem_cons_self a as) b (List.mem_cons_self b bs)
          omega
        rw [List.pairwise_cons]
        constructor
        · intro x hx
          rcases (mergeComp_mem _ x as (b :: bs)).mp hx with hxa | hxb
          · exact (List.pairwise_cons.mp hsa).1 x hxa
          · rcases List.mem_cons.mp hxb with rfl | hxbs
            · exact halt
            · exact halt.trans ((List.pairwise_cons.mp hsb).1 x hxbs)
        · exact iha (b :: bs) (fun x hx => hau x (List.mem_cons_of_mem a hx)) hbu
            (List.Pairwise.of_cons hsa) hsb
            (fun a' ha' b' hb' => hne a' (List.mem_cons_of_mem a ha') b' hb')

theorem MergeActionListsByTrigger_props (A B out : List KeyBinding)
    (hsa : A.Pairwise (fun a c => a.bindingIndex < c.bindingIndex))
    (hsb : B.Pairwise (fun a c => a.bindingIndex < c.bindingIndex))
    (u : Bool)
    (hau : ∀ x ∈ A, x.trigger.anyMod = u) (hbu : ∀ x ∈ B, x.trigger.anyMod = u)
    (hne : ∀ a ∈ A, ∀ b ∈ B, a.bindingIndex ≠ b.bindingIndex) :
    ∃ rest, MergeActionListsByTrigger A B out = out ++ rest ∧
      rest.Pairwise (fun a c => a.bindingIndex < c.bindingIndex) ∧
      ∀ x ∈ rest, x.trigger.anyMod = u := by
  by_cases hAnil : A = []
  · exact ⟨B, by rw [MergeActionListsByTrigger, if_pos hAnil], hsb, hbu⟩
  · refine ⟨mergeComp compareActionByTriggerOrder
      (dedupeMerge A B).1 (dedupeMerge A B).2,
      by rw [MergeActionListsByTrigger, if_neg hAnil], ?_, ?_⟩
    · exact mergeComp_sorted u _ _
        (fun x hx => hau x ((dedupeMerge_fst_sublist B A).subset hx))
        (fun x hx => hbu x ((dedupeMerge_snd_sublist B A).subset hx))
        (hsa.sublist (dedupeMerge_fst_sublist B A))
        (hsb.sublist (dedupeMerge_snd_sublist B A))
        (fun a ha b hb => hne a ((dedupeMerge_fst_sublist B A).subset ha)
          b ((dedupeMerge_snd_sublist B A).subset hb))
    · intro x hx
      rcases (mergeComp_mem _ x _ _).mp hx with hxa | hxb
      · exact hau x ((dedupeMerge_fst_sublist B A).subset hxa)
      · exact hbu x ((dedupeMerge_snd_sublist B A).subset hxb)

/-- C2: every resolution result produced from two live chains (the
key-code chain and the scan-code chain) over a well-formed store is
ordered by trigger order: every exact-modifier-trigger binding precedes
every wildcard-trigger binding, and within equal wildcard status the
binding with the lower global binding index comes first. -/
theorem claim_C2_resolution_trigger_order
    (fit : List KeySet → List KeySet → Bool) (st : BindingsState)
    (hWF : StateWF st) (kc sc : List KeySet)
    (_hkc : kc ≠ []) (_hsc : sc ≠ [])
    (htk : (kc.getLastD dummyKeySet).tag = KeySpaceTag.keyCode)
    (hts : (sc.getLastD dummyKeySet).tag = KeySpaceTag.scanCode) :
    (GetKeyBindingListChains fit st kc sc).Pairwise triggerOrder := by
  obtain ⟨hWFc, hWFs, hcross⟩ := hWF
  set kBack := kc.getLastD dummyKeySet with hkB
  set sBack := sc.getLastD dummyKeySet with hsB
  have hkIsK : kBack.isKeyCode = true := by
    simp [KeySet.isKeyCode, htk]
  have hsIsK : sBack.isKeyCode = false := by
    simp [KeySet.isKeyCode, hts]
  have hsIsK' : ¬ (sBack.isKeyCode = true) := by
    rw [hsIsK]
    exact Bool.false_ne_true
  -- the four filtered candidate lists
  set kList := (if !kBack.anyMod then
    filterByKeychain fit (GetKeyBindingListKS st kBack false) kc else []) with hkL
  set sList := (if !sBack.anyMod then
    filterByKeychain fit (GetKeyBindingListKS st sBack false) sc else []) with hsL
  set kList2 := filterByKeychain fit (GetKeyBindingListKS st kBack true) kc with hkL2
  set sList2 := filterByKeychain fit (GetKeyBindingListKS st sBack true) sc with hsL2
  -- membership transfer into the raw per-keyset lists
  have hkmem : ∀ x ∈ kList, x ∈ GetKeyBindingListKS st kBack false := by
    intro x hx
    rw [hkL] at hx
    by_cases h : kBack.anyMod
    · simp [h] at hx
    · simp only [h, Bool.not_false, if_true] at hx
      exact (List.filter_sublist _).subset hx
  have hsmem : ∀ x ∈ sList, x ∈ GetKeyBindingListKS st sBack false := by
    intro x hx
    rw [hsL] at hx
    by_cases h : sBack.anyMod
    · simp [h] at hx
    · simp only [h, Bool.not_false, if_true] at hx
      exact (List.filter_sublist _).subset hx
  have hkmem2 : ∀ x ∈ kList2, x ∈ GetKeyBindingListKS st kBack true :=
    fun x hx => (List.filter_sublist _).subset hx
  have hsmem2 : ∀ x ∈ sList2, x ∈ GetKeyBindingListKS st sBack true :=
    fun x hx => (List.filter_sublist _).subset hx
  -- triggers of part-1 elements are exact, of part-2 elements wildcard
  have hktrig : ∀ x ∈ kList, x.trigger.anyMod = false := by
    intro x hx
    rw [hkL] at hx
    by_cases h : kBack.anyMod
    · simp [h] at hx
    · simp only [h, Bool.not_false, if_true] at hx
      obtain ⟨e, he, he1, hxe⟩ := getKBL_mem_entry st kBack false x
        ((List.filter_sublist _).subset hx)
      rw [if_pos hkIsK] at he
      have := hWFc.1 e he x hxe
      rw [this, he1]
      simp only [Bool.false_eq_true, if_false]
      simpa using h
  have hstrig : ∀ x ∈ sList, x.trigger.anyMod = false := by
    intro x hx
    rw [hsL] at hx
    by_cases h : sBack.anyMod
    · simp [h] at hx
    · simp only [h, Bool.not_false, if_true] at hx
      obtain ⟨e, he, he1, hxe⟩ := getKBL_mem_entry st sBack false x
        ((List.filter_sublist _).subset hx)
      rw [if_neg hsIsK'] at he
      have := hWFs.1 e he x hxe
      rw [this, he1]
      simp only [Bool.false_eq_true, if_false]
      simpa using h
  have hktrig2 : ∀ x ∈ kList2, x.trigger.anyMod = true := by
    intro x hx
    obtain ⟨e, he, he1, hxe⟩ := getKBL_mem_entry st kBack true x (hkmem2 x hx)
    rw [if_pos hkIsK] at he
    have := hWFc.1 e he x hxe
    rw [this, he1]
    exact KeySet.setAnyBit_anyMod kBack
  have hstrig2 : ∀ x ∈ sList2, x.trigger.anyMod = true := by
    intro x hx
    obtain ⟨e, he, he1, hxe⟩ := getKBL_mem_entry st sBack true x (hsmem2 x hx)
    rw [if_neg hsIsK'] at he
    have := hWFs.1 e he x hxe
    rw [this, he1]
    exact KeySet.setAnyBit_anyMod sBack
  -- sortedness of the four lists
  have hksort : kList.Pairwise (fun a c => a.bindingIndex < c.bindingIndex) := by
    rw [hkL]
    by_cases h : kBack.anyMod
    · simp [h]
    · simp only [h, Bool.not_false, if_true]
      exact (getKBL_sorted st kBack false (by rw [if_pos hkIsK]; exact hWFc)).sublist
        (List.filter_sublist _)
  have hssort : sList.Pairwise (fun a c => a.bindingIndex < c.bindingIndex) := by
    rw [hsL]
    by_cases h : sBack.anyMod
    · simp [h]
    · simp only [h, Bool.not_false, if_true]
      refine (getKBL_sorted st sBack false ?_).sublist (List.filter_sublist _)
      rw [if_neg hsIsK']
      exact hWFs
  have hksort2 : kList2.Pairwise (fun a c => a.bindingIndex < c.bindingIndex) :=
    (getKBL_sorted st kBack true (by rw [if_pos hkIsK]; exact hWFc)).sublist
      (List.filter_sublist _)
  have hssort2 : sList2.Pairwise (fun a c => a.bindingIndex < c.bindingIndex) := by
    refine (getKBL_sorted st sBack true ?_).sublist (List.filter_sublist _)
    rw [if_neg hsIsK']
    exact hWFs
  -- indices never collide between a key-code list and a scan-code list
  have hcross1 : ∀ a ∈ kList, ∀ b ∈ sList, a.bindingIndex ≠ b.bindingIndex := by
    intro a ha b hb
    obtain ⟨e₁, he₁, _, hae⟩ := getKBL_mem_entry st kBack false a (hkmem a ha)
    obtain ⟨e₂, he₂, _, hbe⟩ := getKBL_mem_entry st sBack false b (hsmem b hb)
    rw [if_pos hkIsK] at he₁
    rw [if_neg hsIsK'] at he₂
    exact hcross e₁ he₁ e₂ he₂ a hae b hbe
  have hcross2 : ∀ a ∈ kList2, ∀ b ∈ sList2, a.bindingIndex ≠ b.bindingIndex := by
    intro a ha b hb
    obtain ⟨e₁, he₁, _, hae⟩ := getKBL_mem_entry st kBack true a (hkmem2 a ha)
    obtain ⟨e₂, he₂, _, hbe⟩ := getKBL_mem_entry st sBack true b (hsmem2 b hb)
    rw [if_pos hkIsK] at he₁
    rw [if_neg hsIsK'] at he₂
    exact hcross e₁ he₁ e₂ he₂ a hae b hbe
  -- assemble the two merge steps
  obtain ⟨rest1, heq1, hsort1, hu1⟩ :=
    MergeActionListsByTrigger_props kList sList [] hksort hssort false
      hktrig hstrig hcross1
  obtain ⟨rest2, heq2, hsort2, hu2⟩ :=
    MergeActionListsByTrigger_props kList2 sList2
      (MergeActionListsByTrigger kList sList []) hksort2 hssort2 true
      hktrig2 hstrig2 hcross2
  have hfinal : GetKeyBindingListChains fit st kc sc = rest1 ++ rest2 := by
    rw [GetKeyBindingListChains]
    simp only [← hkB, ← hsB, ← hkL, ← hsL, ← hkL2, ← hsL2]
    rw [heq2, heq1, List.nil_append]
  rw [hfinal, List.pairwise_append]
  refine ⟨?_, ?_, ?_⟩
  · exact hsort1.imp_of_mem (fun ha hb hlt => Or.inr ⟨by rw [hu1 _ ha, hu1 _ hb], hlt⟩)
  · exact hsort2.imp_of_mem (fun ha hb hlt => Or.inr ⟨by rw [hu2 _ ha, hu2 _ hb], hlt⟩)
  · intro a ha b hb
    exact Or.inl ⟨hu1 a ha, hu2 b hb⟩

/-- Witness store for the resolution-order claim: an exact-modifier
key-code binding (index 1) and a wildcard scan-code binding (index 2). -/
def c2St : BindingsState :=
  ⟨[(⟨97, 0, KeySpaceTag.keyCode⟩,
     [⟨⟨"attack", "", "attack"⟩, [⟨97, 0, KeySpaceTag.keyCode⟩], "a", 1⟩])],
   [(⟨4, 16, KeySpaceTag.scanCode⟩,
     [⟨⟨"guard", "", "guard"⟩, [⟨4, 16, KeySpaceTag.scanCode⟩], "Any+sc_a", 2⟩])], 2⟩

theorem claim_C2_witness :
    StateWF c2St ∧
    ([⟨97, 0, KeySpaceTag.keyCode⟩] : List KeySet) ≠ [] ∧
    ([⟨4, 0, KeySpaceTag.scanCode⟩] : List KeySet) ≠ [] ∧
    (([⟨97, 0, KeySpaceTag.keyCode⟩] : List KeySet).getLastD dummyKeySet).tag =
      KeySpaceTag.keyCode ∧
    (([⟨4, 0, KeySpaceTag.scanCode⟩] : List KeySet).getLastD dummyKeySet).tag =
      KeySpaceTag.scanCode ∧
    (GetKeyBindingListChains (fun _ _ => true) c2St
      [⟨97, 0, KeySpaceTag.keyCode⟩] [⟨4, 0, KeySpaceTag.scanCode⟩]).Pairwise
        triggerOrder :=
  ⟨⟨⟨by decide, by decide⟩, ⟨by decide, by decide⟩, by decide⟩,
   by decide, by decide, by decide, by decide,
   claim_C2_resolution_trigger_order (fun _ _ => true) c2St
     ⟨⟨by decide, by decide⟩, ⟨by decide, by decide⟩, by decide⟩
     [⟨97, 0, KeySpaceTag.keyCode⟩] [⟨4, 0, KeySpaceTag.scanCode⟩]
     (by decide) (by decide) (by decide) (by decide)⟩

/-! ## C8: chain reparsing with ambiguous separators -/

theorem mem_of_getLast?_eq_some {l : List Nat} {a : Nat} (h : l.getLast? = some a) :
    a ∈ l := by
  induction l with
  | nil => simp at h
  | cons x l ih =>
    cases l with
    | nil =>
      simp only [List.getLast?_singleton, Option.some.injEq] at h
      simp [h]
    | cons y t =>
      rw [List.getLast?_cons_cons] at h
      exact List.mem_cons_of_mem x (ih h)

theorem sorted_getLast?_max :
    ∀ l : List Nat, l.Pairwise (fun a b => a < b) →
      ∀ {c : Nat}, l.getLast? = some c → ∀ i ∈ l, i ≤ c := by
  intro l
  induction l with
  | nil => intro _ c h; simp at h
  | cons x l ih =>
    intro hpw c hlast i hi
    cases l with
    | nil =>
      simp only [List.getLast?_singleton, Option.some.injEq] at hlast
      rcases List.mem_cons.mp hi with rfl | hit
      · omega
      · exact absurd hit (List.not_mem_nil i)
    | cons y t =>
      rw [List.getLast?_cons_cons] at hlast
      have hc : c ∈ y :: t := mem_of_getLast?_eq_some hlast
      rcases List.mem_cons.mp hi with rfl | hit
      · exact le_of_lt ((List.pairwise_cons.mp hpw).1 c hc)
      · exact ih (List.Pairwise.of_cons hpw) hlast i hit

theorem mem_commaIdxs {cs : List Char} {pos : Option Nat} {i : Nat} :
    i ∈ commaIdxs cs pos ↔
      i < cs.length ∧ cs.getD i ' ' = ',' ∧ ∀ pp, pos = some pp → i ≤ pp := by
  rw [commaIdxs, List.mem_filter, List.mem_range]
  constructor
  · rintro ⟨h1, h2⟩
    rw [Bool.and_eq_true] at h2
    refine ⟨h1, eq_of_beq h2.1, ?_⟩
    intro pp hpp
    rw [hpp] at h2
    simpa using h2.2
  · rintro ⟨h1, h2, h3⟩
    refine ⟨h1, ?_⟩
    rw [Bool.and_eq_true]
    refine ⟨beq_iff_eq.mpr h2, ?_⟩
    cases pos with
    | none => rfl
    | some pp => simpa using h3 pp rfl

theorem rfindComma_spec {cs : List Char} {pos : Option Nat} {c : Nat}
    (h : rfindComma cs pos = some c) :
    c ∈ commaIdxs cs pos ∧ ∀ i ∈ commaIdxs cs pos, i ≤ c := by
  refine ⟨mem_of_getLast?_eq_some h, ?_⟩
  refine sorted_getLast?_max _ ?_ h
  exact List.Pairwise.sublist (List.filter_sublist _) (List.pairwise_lt_range _)

theorem filter_range_extend (r : Nat → Bool) (n k : Nat)
    (h : ∀ i, r i = true → i < n) :
    (List.range (n + k)).filter r = (List.range n).filter r := by
  rw [List.range_add, List.filter_append]
  have hnil : (List.map (fun x => n + x) (List.range k)).filter r = [] := by
    rw [List.filter_eq_nil_iff]
    intro a ha
    obtain ⟨x, _, rfl⟩ := List.mem_map.mp ha
    intro hc
    have := h _ hc
    omega
  rw [hnil, List.append_nil]

theorem commaIdxs_pred_before {cs : List Char} {pos : Option Nat} {c : Nat}
    (hc : rfindComma cs pos = some c) :
    commaIdxs cs (some (c - 1)) =
      (commaIdxs cs pos).filter (fun i => decide (i ≤ c - 1)) := by
  obtain ⟨hmem, _⟩ := rfindComma_spec hc
  obtain ⟨_, _, hbound⟩ := mem_commaIdxs.mp hmem
  rw [commaIdxs, commaIdxs, List.filter_filter]
  apply List.filter_congr
  intro i _
  cases pos with
  | none =>
    simp only [Option.elim]
    cases hA : (cs.getD i ' ' == ',') <;> cases hB : decide (i ≤ c - 1) <;>
      simp [hA, hB]
  | some p =>
    have hp : c ≤ p := hbound p rfl
    simp only [Option.elim]
    cases hA : (cs.getD i ' ' == ',') with
    | false => simp [hA]
    | true =>
      by_cases hi : i ≤ c - 1
      · have h1 : decide (i ≤ c - 1) = true := decide_eq_true hi
        have h2 : decide (i ≤ p) = true := decide_eq_true (by omega)
        simp [hA, h1, h2]
      · simp [hA, decide_eq_false hi]

theorem commaIdxs_length_before {cs : List Char} {pos : Option Nat} {c : Nat}
    (hc : rfindComma cs pos = some c) (hz : c ≠ 0) :
    (commaIdxs cs (some (c - 1))).length < (commaIdxs cs pos).length := by
  rw [commaIdxs_pred_before hc]
  refine List.length_filter_lt_length_iff_exists.mpr ⟨c, (rfindComma_spec hc).1, ?_⟩
  simp only [decide_eq_true_eq]
  omega

theorem replace_getD_lt {cs : List Char} {c i : Nat} (hi : i < c) (hcl : c < cs.length) :
    (replaceAtWithHex cs c).getD i ' ' = cs.getD i ' ' := by
  rw [replaceAtWithHex, List.append_assoc]
  rw [List.getD_append _ _ _ i (by rw [List.length_take]; omega)]
  have hi' : i < (cs.take c).length := by rw [List.length_take]; omega
  rw [List.getD_eq_getElem _ _ hi', List.getD_eq_getElem _ _ (by omega : i < cs.length)]
  exact List.getElem_take cs

theorem replace_getD_self {cs : List Char} {c : Nat} (hcl : c < cs.length) :
    (replaceAtWithHex cs c).getD c ' ' = '0' := by
  rw [replaceAtWithHex, List.append_assoc]
  rw [List.getD_append_right _ _ _ _ (by rw [List.length_take]; omega)]
  rw [List.length_take]
  have : c - min c cs.length = 0 := by omega
  rw [this]
  rfl

theorem replace_length {cs : List Char} {c : Nat} (hcl : c < cs.length) :
    (replaceAtWithHex cs c).length = cs.length + 3 := by
  rw [replaceAtWithHex]
  simp [List.length_take, List.length_drop, hexComma]
  omega

theorem commaIdxs_replace {cs : List Char} {pos : Option Nat} {c : Nat}
    (hc : rfindComma cs pos = some c) :
    commaIdxs (replaceAtWithHex cs c) (some c) =
      (commaIdxs cs pos).filter (fun i => decide (i < c)) := by
  obtain ⟨hmem, _⟩ := rfindComma_spec hc
  obtain ⟨hlen, hcomma, hbound⟩ := mem_commaIdxs.mp hmem
  have hpred : ∀ i : Nat,
      (((replaceAtWithHex cs c).getD i ' ' == ',') && (some c).elim true (fun pp => decide (i ≤ pp))) =
      ((cs.getD i ' ' == ',') && decide (i < c)) := by
    intro i
    rcases lt_trichotomy i c with hi | hi | hi
    · rw [replace_getD_lt hi hlen]
      simp only [Option.elim]
      rw [decide_eq_true (by omega : i ≤ c), decide_eq_true hi]
    · subst hi
      rw [replace_getD_self hlen]
      rw [decide_eq_false (by omega : ¬ (i < i))]
      simp
    · simp only [Option.elim]
      rw [decide_eq_false (by omega : ¬ (i ≤ c)), decide_eq_false (by omega : ¬ (i < c))]
      simp
  rw [commaIdxs, commaIdxs, List.filter_filter]
  rw [List.filter_congr (fun i _ => hpred i)]
  rw [replace_length hlen]
  rw [filter_range_extend _ cs.length 3 (by
    intro i hr
    rw [Bool.and_eq_true] at hr
    have := decide_eq_true_eq.mp hr.2
    omega)]
  apply List.filter_congr
  intro i _
  cases pos with
  | none =>
    simp only [Option.elim]
    cases hA : (cs.getD i ' ' == ',') <;> cases hB : decide (i < c) <;>
      simp [hA, hB]
  | some p =>
    have hp : c ≤ p := hbound p rfl
    simp only [Option.elim]
    cases hA : (cs.getD i ' ' == ',') with
    | false => simp [hA]
    | true =>
      by_cases hi : i < c
      · have h1 : decide (i < c) = true := decide_eq_true hi
        have h2 : decide (i ≤ p) = true := decide_eq_true (by omega)
        simp [hA, h1, h2]
      · simp [hA, decide_eq_false hi]

theorem commaIdxs_length_replace {cs : List Char} {pos : Option Nat} {c : Nat}
    (hc : rfindComma cs pos = some c) :
    (commaIdxs (replaceAtWithHex cs c) (some c)).length < (commaIdxs cs pos).length := by
  rw [commaIdxs_replace hc]
  refine List.length_filter_lt_length_iff_exists.mpr ⟨c, (rfindComma_spec hc).1, ?_⟩
  simp

theorem ParseKeyChainF_mono (p : List Char → Option KeySet) :
    ∀ f₁ f₂ (cs : List Char) (pos : Option Nat),
      (commaIdxs cs pos).length < f₁ → (commaIdxs cs pos).length < f₂ →
      ParseKeyChainF p f₁ cs pos = ParseKeyChainF p f₂ cs pos := by
  intro f₁
  induction f₁ with
  | zero => intro f₂ cs pos h₁ _; omega
  | succ f₁ ih =>
    intro f₂ cs pos h₁ h₂
    cases f₂ with
    | zero => omega
    | succ f₂ =>
      cases hs : ParseSingleChain p cs with
      | some kc => simp [ParseKeyChainF, hs]
      | none =>
        cases hr : rfindComma cs pos with
        | none => simp [ParseKeyChainF, hs, hr]
        | some cpos =>
          have hdec2 := commaIdxs_length_replace hr
          by_cases hz : cpos = 0
          · subst hz
            have e2 : ParseKeyChainF p f₁ (replaceAtWithHex cs 0) (some 0) =
                ParseKeyChainF p f₂ (replaceAtWithHex cs 0) (some 0) :=
              ih f₂ _ _ (by omega) (by omega)
            simp [ParseKeyChainF, hs, hr, e2]
          · have hdec1 := commaIdxs_length_before hr hz
            have e1 : ParseKeyChainF p f₁ cs (some (cpos - 1)) =
                ParseKeyChainF p f₂ cs (some (cpos - 1)) :=
              ih f₂ _ _ (by omega) (by omega)
            have e2 : ParseKeyChainF p f₁ (replaceAtWithHex cs cpos) (some cpos) =
                ParseKeyChainF p f₂ (replaceAtWithHex cs cpos) (some cpos) :=
              ih f₂ _ _ (by omega) (by omega)
            simp [ParseKeyChainF, hs, hr, hz, e1, e2]

theorem ParseKeyChain_eq_single {p : List Char → Option KeySet} {cs : List Char}
    {kc : List KeySet} (pos : Option Nat) (hs : ParseSingleChain p cs = some kc) :
    ParseKeyChain p cs pos = some kc := by
  rw [ParseKeyChain]
  simp [ParseKeyChainF, hs]

theorem ParseKeyChain_eq_nocomma {p : List Char → Option KeySet} {cs : List Char}
    {pos : Option Nat} (hs : ParseSingleChain p cs = none)
    (hr : rfindComma cs pos = none) :
    ParseKeyChain p cs pos = none := by
  rw [ParseKeyChain]
  simp [ParseKeyChainF, hs, hr]

theorem ParseKeyChain_eq_branch {p : List Char → Option KeySet} {cs : List Char}
    {pos : Option Nat} {cpos : Nat} (hs : ParseSingleChain p cs = none)
    (hr : rfindComma cs pos = some cpos) :
    ParseKeyChain p cs pos =
      match (if cpos = 0 then none else ParseKeyChain p cs (some (cpos - 1))) with
      | some kc => some kc
      | none => ParseKeyChain p (replaceAtWithHex cs cpos) (some cpos) := by
  have hdec2 := commaIdxs_length_replace hr
  have e2 : ParseKeyChainF p (commaCountLE cs pos) (replaceAtWithHex cs cpos) (some cpos) =
      ParseKeyChain p (replaceAtWithHex cs cpos) (some cpos) := by
    rw [ParseKeyChain]
    exact ParseKeyChainF_mono p _ _ _ _
      (by rw [commaCountLE]; omega) (by rw [commaCountLE]; omega)
  by_cases hz : cpos = 0
  · subst hz
    rw [ParseKeyChain]
    simp [ParseKeyChainF, hs, hr, e2]
  · have hdec1 := commaIdxs_length_before hr hz
    have e1 : ParseKeyChainF p (commaCountLE cs pos) cs (some (cpos - 1)) =
        ParseKeyChain p cs (some (cpos - 1)) := by
      rw [ParseKeyChain]
      exact ParseKeyChainF_mono p _ _ _ _
        (by rw [commaCountLE]; omega) (by rw [commaCountLE]; omega)
    rw [ParseKeyChain]
    simp [ParseKeyChainF, hs, hr, hz, e1, e2]

/-- A reinterpretation of separator occurrences as literal hex-coded key
references: `Reach cs pos t` holds when `t` is obtained from `cs` by
replacing commas, right to left, at positions bounded by `pos`, each with
the hex literal `0x2c`.  This is exactly the search space the
backtracking of `ParseKeyChain` explores. -/
inductive Reach : List Char → Option Nat → List Char → Prop
  | refl (cs : List Char) (pos : Option Nat) : Reach cs pos cs
  | step {cs : List Char} {pos : Option Nat} {t : List Char} (c : Nat) :
      c < cs.length → cs.getD c ' ' = ',' → (∀ pp, pos = some pp → c ≤ pp) →
      Reach (replaceAtWithHex cs c) (some c) t → Reach cs pos t

theorem Reach.weaken {cs : List Char} {q : Nat} {t : List Char} {pos : Option Nat}
    (h : Reach cs (some q) t) (hq : ∀ pp, pos = some pp → q ≤ pp) :
    Reach cs pos t := by
  cases h with
  | refl => exact Reach.refl cs pos
  | step c hlen hcomma hbound hrest =>
    exact Reach.step c hlen hcomma
      (fun pp hpp => le_trans (hbound q rfl) (hq pp hpp)) hrest

theorem ParseKeyChain_isSome_iff (p : List Char → Option KeySet) :
    ∀ (n : Nat) (cs : List Char) (pos : Option Nat), (commaIdxs cs pos).length ≤ n →
      ((ParseKeyChain p cs pos).isSome = true ↔
        ∃ t, Reach cs pos t ∧ (ParseSingleChain p t).isSome = true) := by
  intro n
  induction n using Nat.strong_induction_on with
  | _ n ih =>
    intro cs pos hn
    cases hs : ParseSingleChain p cs with
    | some kc =>
      rw [ParseKeyChain_eq_single pos hs]
      exact iff_of_true rfl ⟨cs, Reach.refl cs pos, by rw [hs]; rfl⟩
    | none =>
      cases hr : rfindComma cs pos with
      | none =>
        rw [ParseKeyChain_eq_nocomma hs hr]
        constructor
        · intro hcontra
          simp at hcontra
        · rintro ⟨t, hreach, hparse⟩
          cases hreach with
          | refl =>
            rw [hs] at hparse
            simp at hparse
          | step c hlen hcomma hbound _ =>
            have hmem : c ∈ commaIdxs cs pos := mem_commaIdxs.mpr ⟨hlen, hcomma, hbound⟩
            rw [rfindComma, List.getLast?_eq_none_iff] at hr
            rw [hr] at hmem
            exact absurd hmem (List.not_mem_nil c)
      | some cpos =>
        obtain ⟨hcm, hcmax⟩ := rfindComma_spec hr
        obtain ⟨hclen, hccomma, hcbound⟩ := mem_commaIdxs.mp hcm
        have hdec2 := commaIdxs_length_replace hr
        have hIH2 := ih ((commaIdxs (replaceAtWithHex cs cpos) (some cpos)).length)
          (by omega) (replaceAtWithHex cs cpos) (some cpos) (le_refl _)
        rw [ParseKeyChain_eq_branch hs hr]
        by_cases hz : cpos = 0
        · subst hz
          rw [if_pos rfl]
          rw [show (match (none : Option (List KeySet)) with
              | some kc => some kc
              | none => ParseKeyChain p (replaceAtWithHex cs 0) (some 0)) =
            ParseKeyChain p (replaceAtWithHex cs 0) (some 0) from rfl]
          rw [hIH2]
          constructor
          · rintro ⟨t, hreach, hparse⟩
            exact ⟨t, Reach.step 0 hclen hccomma hcbound hreach, hparse⟩
          · rintro ⟨t, hreach, hparse⟩
            cases hreach with
            | refl =>
              rw [hs] at hparse
              simp at hparse
            | step c hlen hcomma hbound hrest =>
              have hcc : c ≤ 0 := hcmax c (mem_commaIdxs.mpr ⟨hlen, hcomma, hbound⟩)
              have hc0 : c = 0 := by omega
              subst hc0
              exact ⟨t, hrest, hparse⟩
        · rw [if_neg hz]
          have hdec1 := commaIdxs_length_before hr hz
          have hIH1 := ih ((commaIdxs cs (some (cpos - 1))).length)
            (by omega) cs (some (cpos - 1)) (le_refl _)
          cases hb1 : ParseKeyChain p cs (some (cpos - 1)) with
          | some kc =>
            rw [show (match (some kc : Option (List KeySet)) with
                | some kc => some kc
                | none => ParseKeyChain p (replaceAtWithHex cs cpos) (some cpos)) =
              some kc from rfl]
            constructor
            · intro _
              have hb1s : (ParseKeyChain p cs (some (cpos - 1))).isSome = true := by
                rw [hb1]
                rfl
              obtain ⟨t, hreach, hparse⟩ := hIH1.mp hb1s
              refine ⟨t, hreach.weaken (fun pp hpp => ?_), hparse⟩
              have := hcbound pp hpp
              omega
            · intro _
              rfl
          | none =>
            rw [show (match (none : Option (List KeySet)) with
                | some kc => some kc
                | none => ParseKeyChain p (replaceAtWithHex cs cpos) (some cpos)) =
              ParseKeyChain p (replaceAtWithHex cs cpos) (some cpos) from rfl]
            rw [hIH2]
            constructor
            · rintro ⟨t, hreach, hparse⟩
              exact ⟨t, Reach.step cpos hclen hccomma hcbound hreach, hparse⟩
            · rintro ⟨t, hreach, hparse⟩
              cases hreach with
              | refl =>
                rw [hs] at hparse
                simp at hparse
              | step c hlen hcomma hbound hrest =>
                have hcc : c ≤ cpos := hcmax c (mem_commaIdxs.mpr ⟨hlen, hcomma, hbound⟩)
                by_cases hceq : c = cpos
                · subst hceq
                  exact ⟨t, hrest, hparse⟩
                · exfalso
                  have hw : Reach cs (some (cpos - 1)) t := by
                    refine Reach.step c hlen hcomma (fun pp hpp => ?_) hrest
                    injection hpp with hpp'
                    omega
                  have hb1s : (ParseKeyChain p cs (some (cpos - 1))).isSome = true :=
                    hIH1.mpr ⟨t, hw, hparse⟩
                  rw [hb1] at hb1s
                  simp at hb1s

/-- C8 (amended): for every shortcut text containing the separator `','`,
the chain parser succeeds iff some reinterpretation of separator
occurrences as literal hex-coded key references yields a parsable chain,
and it returns failure only when no such reinterpretation parses.  (The
order in which the backtracking tries reinterpretations does not always
prefer the longest valid chain split; see the counterexample.) -/
theorem claim_C8_reparse_iff (p : List Char → Option KeySet) (cs : List Char)
    (_hcomma : ',' ∈ cs) :
    (∃ kc, ParseKeyChain p cs none = some kc) ↔
      ∃ t, Reach cs none t ∧ ∃ kc, ParseSingleChain p t = some kc := by
  have h := ParseKeyChain_isSome_iff p ((commaIdxs cs none).length) cs none (le_refl _)
  constructor
  · rintro ⟨kc, hkc⟩
    obtain ⟨t, hreach, hparse⟩ := h.mp (by rw [hkc]; rfl)
    cases ho : ParseSingleChain p t with
    | none => rw [ho] at hparse; simp at hparse
    | some kc' => exact ⟨t, hreach, kc', ho⟩
  · rintro ⟨t, hreach, kc, hkc⟩
    have hres := h.mpr ⟨t, hreach, by rw [hkc]; rfl⟩
    cases ho : ParseKeyChain p cs none with
    | none => rw [ho] at hres; simp at hres
    | some kc' => exact ⟨kc', rfl⟩

/-- Key-set parser exhibiting the backtracking order of `ParseKeyChain`:
on the text `a,b,c,d` the plain split and the splits keeping the first or
the second comma as a separator all fail, the split replacing the first
two commas parses as a two-chord chain, and the split replacing only the
third comma parses as a three-chord chain. -/
def cexP (s : List Char) : Option KeySet :=
  if s = ['a'] ∨ s = ['b'] ∨ s = ['d'] ∨ s = "a0x2cb0x2cc".toList ∨ s = "c0x2cd".toList
  then some ⟨1, 0, KeySpaceTag.keyCode⟩ else none

/-- C8, counterexample to the preference conjunct: on `a,b,c,d` with the
parser `cexP`, `ParseKeyChain` returns a chain of only two chords, even
though the reinterpretation that replaces only the comma at position 5
(yielding the text `a,b,c0x2cd`) is reachable and parses as a chain of
three chords — a longer valid chain split, with fewer commas treated as
literals, which the claim says the parser prefers. -/
theorem claim_C8_counterexample :
    (',' ∈ "a,b,c,d".toList) ∧
    (ParseKeyChain cexP "a,b,c,d".toList none).elim 0 List.length = 2 ∧
    Reach "a,b,c,d".toList none (replaceAtWithHex "a,b,c,d".toList 5) ∧
    (ParseSingleChain cexP (replaceAtWithHex "a,b,c,d".toList 5)).elim 0 List.length = 3 := by
  refine ⟨by decide, by decide, ?_, by decide⟩
  exact Reach.step 5 (by decide) (by decide) (fun pp h => by cases h) (Reach.refl _ _)

theorem claim_C8_witness :
    (',' ∈ "a,b,c,d".toList) ∧
    ((∃ kc, ParseKeyChain cexP "a,b,c,d".toList none = some kc) ↔
      ∃ t, Reach "a,b,c,d".toList none t ∧
        ∃ kc, ParseSingleChain cexP t = some kc) :=
  ⟨by decide, claim_C8_reparse_iff cexP "a,b,c,d".toList (by decide)⟩

end Recoil
